import Mathlib

/-!
Verification development for the CloudStream3D geometry-processing core.

The JavaScript source (renderer/pointCloudReducer.js, renderer/xyzParser.js,
and the exportToXYZ variant carrying a decimalPlaces parameter) is embedded
shallowly: JS float64 numbers are modelled as exact rationals, JS Map objects
with string voxel keys as insertion-ordered association lists keyed by integer
triples, Math.random as an injected stream of rationals in [0, 1), and the
float-only transcendental operations (Math.pow with fractional exponents,
Math.sqrt) as explicit function parameters, since their float64 values have no
exact rational counterpart.  Fallible array indexing is Option-returning.
-/

namespace CloudStream

/-- A point record as produced by the parser and consumed by the reducer:
three coordinates plus three independently nullable color channels. -/
structure Point where
  x : ℚ
  y : ℚ
  z : ℚ
  r : Option ℚ := none
  g : Option ℚ := none
  b : Option ℚ := none
deriving DecidableEq, Repr

/-- Projected point carrying its original index, as built inside
identifyBoundaryPoints by points.map((p, idx) => ({x: p.x, y: p.y, index: idx})). -/
structure P2 where
  x : ℚ
  y : ℚ
  index : ℕ
deriving DecidableEq, Repr

/-- Cross product of vectors OA and OB, as in convexHull2D:
positive for a counter-clockwise turn, negative for clockwise, zero for collinear. -/
def cross (o a b : P2) : ℚ :=
  (a.x - o.x) * (b.y - o.y) - (a.y - o.y) * (b.x - o.x)

/-- Boolean comparator matching the JS sort callback
(a, b) => a.x !== b.x ? a.x - b.x : a.y - b.y used on the projected points:
a is allowed before b iff the callback is nonpositive. -/
def jsLeB (a b : P2) : Bool :=
  decide (a.x < b.x ∨ (a.x = b.x ∧ a.y ≤ b.y))

/-- Insert an element in front of the first position whose element it may
precede; inserting earlier elements into the sorted list of later ones makes
the sort below stable. -/
def insSorted {α : Type} (le : α → α → Bool) (a : α) : List α → List α
  | [] => [a]
  | b :: l => if le a b then a :: b :: l else b :: insSorted le a l

/-- Stable sort modelling JS Array.prototype.sort (which is stable per the
ECMA specification): for comparators describing a total preorder every stable
sort produces the same list. -/
def jsSort {α : Type} (le : α → α → Bool) : List α → List α
  | [] => []
  | a :: l => insSorted le a (jsSort le l)

/-- One step of the monotone-chain construction: push the candidate p,
first popping stack tops while the last two stack points and p fail to make a
strictly counter-clockwise turn (cross ≤ 0).  The stack is kept with its most
recently pushed element at the head. -/
def hullStep : List P2 → P2 → List P2
  | [], p => [p]
  | [a], p => [p, a]
  | t :: s :: rest, p =>
    if cross s t p ≤ 0 then hullStep (s :: rest) p else p :: t :: s :: rest

/-- Run the chain construction over a list of candidates (in order),
returning the final stack (head = last kept point). -/
def chain (l : List P2) : List P2 := l.foldl hullStep []

/-- Andrew monotone-chain 2D convex hull over projected points, as in
convexHull2D: fewer than 3 points are returned unchanged; otherwise the
points are sorted lexicographically, the lower and upper chains are built,
the final point of each chain is dropped, and the chains are concatenated. -/
def convexHull2D (points : List P2) : List P2 :=
  if points.length < 3 then points
  else
    ((chain (jsSort jsLeB points)).tail.reverse) ++
      ((chain (jsSort jsLeB points).reverse).tail.reverse)

/-- Attach original indices to points, modelling
points.map((p, idx) => ({x: p.x, y: p.y, index: idx})) with a running index. -/
def projIdx : ℕ → List Point → List P2
  | _, [] => []
  | i, p :: rest => ⟨p.x, p.y, i⟩ :: projIdx (i + 1) rest

/-- identifyBoundaryPoints from renderer/pointCloudReducer.js: empty cloud
gives the empty set, fewer than 3 points makes every index a boundary index,
and otherwise the indices of the 2D convex hull of the (x, y) projection. -/
def identifyBoundaryPoints (points : List Point) : Finset ℕ :=
  if points.length = 0 then ∅
  else if points.length < 3 then Finset.range points.length
  else ((convexHull2D (projIdx 0 points)).map (fun p => p.index)).toFinset

/-- Pair every element with its running index, modelling
points.forEach((p, idx) => ...) and points.map((p, idx) => ...). -/
def withIdx {α : Type} : ℕ → List α → List (α × ℕ)
  | _, [] => []
  | i, a :: rest => (a, i) :: withIdx (i + 1) rest

/-- Fold of min over a coordinate, seeded from the first element; the JS code
seeds from Infinity but only reads the result on a non-empty list. -/
def minCoord (f : Point → ℚ) : List Point → ℚ
  | [] => 0
  | p :: rest => rest.foldl (fun m q => min m (f q)) (f p)

/-- Fold of max over a coordinate, seeded from the first element; the JS code
seeds from -Infinity but only reads the result on a non-empty list. -/
def maxCoord (f : Point → ℚ) : List Point → ℚ
  | [] => 0
  | p :: rest => rest.foldl (fun m q => max m (f q)) (f p)

/-- Math.round: round half toward positive infinity, as JS does. -/
def jsRound (q : ℚ) : ℚ := (⌊q + 1/2⌋ : ℤ)

/-- Integer voxel coordinates of a point, modelling the string key
vx + "," + vy + "," + vz (string formatting of integers is injective, so the
integer triple is an equivalent key). -/
def voxelKey (minX minY minZ voxelSize : ℚ) (p : Point) : ℤ × ℤ × ℤ :=
  (⌊(p.x - minX) / voxelSize⌋, ⌊(p.y - minY) / voxelSize⌋, ⌊(p.z - minZ) / voxelSize⌋)

/-- Insert a point under its voxel key, preserving JS Map insertion order:
a new key is appended at the end, an existing key has the point pushed at the
end of its bucket. -/
def addVoxel : List ((ℤ × ℤ × ℤ) × List Point) → (ℤ × ℤ × ℤ) → Point →
    List ((ℤ × ℤ × ℤ) × List Point)
  | [], k, p => [(k, [p])]
  | (k0, ps) :: rest, k, p =>
    if k0 = k then (k0, ps ++ [p]) :: rest else (k0, ps) :: addVoxel rest k p

/-- Group points into voxels in input order. -/
def groupVoxels (keyf : Point → ℤ × ℤ × ℤ) (pts : List Point) :
    List ((ℤ × ℤ × ℤ) × List Point) :=
  pts.foldl (fun m p => addVoxel m (keyf p) p) []

/-- Centroid of one voxel bucket: coordinates are arithmetic means; color sums
accumulate only for members whose r channel is non-null (matching the JS guard
if (p.r !== null)), with the g and b summands coerced from null to 0 as JS
addition of null does; the result has color iff some member had non-null r. -/
def voxelCentroid (ps : List Point) : Point :=
  let n : ℚ := ps.length
  let sumX := ps.foldl (fun s p => s + p.x) 0
  let sumY := ps.foldl (fun s p => s + p.y) 0
  let sumZ := ps.foldl (fun s p => s + p.z) 0
  let hasColor := ps.any (fun p => p.r.isSome)
  let sumR := ps.foldl (fun s p => if p.r.isSome then s + p.r.getD 0 else s) 0
  let sumG := ps.foldl (fun s p => if p.r.isSome then s + p.g.getD 0 else s) 0
  let sumB := ps.foldl (fun s p => if p.r.isSome then s + p.b.getD 0 else s) 0
  { x := sumX / n, y := sumY / n, z := sumZ / n
    r := if hasColor then some (jsRound (sumR / n)) else none
    g := if hasColor then some (jsRound (sumG / n)) else none
    b := if hasColor then some (jsRound (sumB / n)) else none }

/-- Interior points (with original indices): those whose index is not in the
boundary index collection. -/
def interiorWithIdx (points : List Point) (boundaryIndices : List ℕ) :
    List (Point × ℕ) :=
  (withIdx 0 points).filter (fun pi => ¬ boundaryIndices.contains pi.2)

/-- Look up every boundary index, modelling
Array.from(boundaryIndices).map(idx => points[idx]); none models an
out-of-range access producing an undefined entry. -/
def lookupAll (points : List Point) : List ℕ → Option (List Point)
  | [] => some []
  | i :: rest =>
    match points[i]?, lookupAll points rest with
    | some p, some ps => some (p :: ps)
    | _, _ => none

/-- voxelDownsampling from renderer/pointCloudReducer.js.  The jspow parameter
models Math.pow on float64 for the two fractional-exponent uses (exponent 1.5
and 1/3), whose values are not rational in general.  Boundary lookups
points[idx] are Option-returning; none models an out-of-range access producing
an undefined entry. -/
def voxelDownsampling (jspow : ℚ → ℚ → ℚ) (points : List Point)
    (targetPercentage : ℚ) (boundaryIndices : List ℕ := []) :
    Option (List Point) :=
  if 100 ≤ targetPercentage then some points
  else if points.length = 0 then some []
  else
    match lookupAll points boundaryIndices with
    | none => none
    | some boundaryPoints =>
      let interiorPoints := (interiorWithIdx points boundaryIndices).map (fun pi => pi.1)
      if interiorPoints.length = 0 then some points
      else
        let totalTarget : ℤ := max 1 ⌊(points.length : ℚ) * targetPercentage / 100⌋
        let interiorTarget : ℤ := max 1 (totalTarget - boundaryPoints.length)
        if totalTarget ≤ (boundaryPoints.length : ℤ) then some boundaryPoints
        else
          let minX := minCoord (fun p => p.x) interiorPoints
          let maxX := maxCoord (fun p => p.x) interiorPoints
          let minY := minCoord (fun p => p.y) interiorPoints
          let maxY := maxCoord (fun p => p.y) interiorPoints
          let minZ := minCoord (fun p => p.z) interiorPoints
          let maxZ := maxCoord (fun p => p.z) interiorPoints
          let volume := (maxX - minX) * (maxY - minY) * (maxZ - minZ)
          if volume = 0 then some (points.take interiorTarget.toNat)
          else
            let reductionFactor := 100 / max targetPercentage 1
            let scaleFactor := jspow reductionFactor (3/2)
            let avgSpacing := jspow (volume / points.length) (1/3)
            let voxelSize := avgSpacing * max (scaleFactor - 98/100) (1/1000)
            let groups := groupVoxels (voxelKey minX minY minZ voxelSize) interiorPoints
            some (boundaryPoints ++ groups.map (fun kv => voxelCentroid kv.2))

/-- An interior point decorated with its sampled gradient score and its random
tiebreaker, as built by zGradientDownsampling. -/
structure GradPt where
  pt : Point
  gradient : ℚ
  rnd : ℚ
deriving DecidableEq, Repr

/-- Boolean comparator matching the JS sort callback of zGradientDownsampling:
a may come before b iff the callback value is nonpositive, where the callback
compares gradients descending and falls back to the random tiebreaker when the
gradients differ by less than 0.001. -/
def gradLeB (a b : GradPt) : Bool :=
  decide (if |b.gradient - a.gradient| < 1/1000 then b.rnd ≤ a.rnd
          else b.gradient ≤ a.gradient)

/-- The neighbor-sampling loop estimating the local Z gradient of one interior
point: sampleSize draws from the random stream (at positions base, base+1, ...),
each giving a candidate neighbor index floor(random * n); the point itself is
skipped, and a qualifying neighbor (horizontal distance strictly between 0 and
10) contributes |dz| / xyDist to a running maximum starting at 0.  A negative
or out-of-range neighbor access yields none. -/
def gradLoopAux (jssqrt : ℚ → ℚ) (rand : ℕ → ℚ) (points : List Point) (p : Point)
    (idx : ℕ) (base : ℕ) : List ℕ → ℚ → Option ℚ
  | [], acc => some acc
  | i :: rest, acc =>
    let nIdx : ℤ := ⌊rand (base + i) * (points.length : ℚ)⌋
    if nIdx = (idx : ℤ) then gradLoopAux jssqrt rand points p idx base rest acc
    else
      match (if 0 ≤ nIdx then points[nIdx.toNat]? else none) with
      | none => none
      | some nb =>
        let dx := p.x - nb.x
        let dy := p.y - nb.y
        let dz := |p.z - nb.z|
        let xyDist := jssqrt (dx * dx + dy * dy)
        if 0 < xyDist ∧ xyDist < 10 then
          gradLoopAux jssqrt rand points p idx base rest (max acc (dz / xyDist))
        else gradLoopAux jssqrt rand points p idx base rest acc

/-- The full sampling loop of one interior point, over draws 0 .. sampleSize-1. -/
def gradLoop (jssqrt : ℚ → ℚ) (rand : ℕ → ℚ) (points : List Point) (p : Point)
    (idx : ℕ) (base : ℕ) (sampleSize : ℕ) : Option ℚ :=
  gradLoopAux jssqrt rand points p idx base (List.range sampleSize) 0

/-- Decorate every interior point (k-th in interior order) with its gradient
score and tiebreaker; the k-th point consumes stream positions
k*(sampleSize+1) .. k*(sampleSize+1)+sampleSize-1 for neighbor sampling and
position k*(sampleSize+1)+sampleSize for the tiebreaker, matching the
sequential consumption order of Math.random in the JS code. -/
def gradedOfAux (jssqrt : ℚ → ℚ) (rand : ℕ → ℚ) (points : List Point)
    (sampleSize : ℕ) : List ((Point × ℕ) × ℕ) → Option (List GradPt)
  | [] => some []
  | m :: rest =>
    let base := m.2 * (sampleSize + 1)
    match gradLoop jssqrt rand points m.1.1 m.1.2 base sampleSize,
        gradedOfAux jssqrt rand points sampleSize rest with
    | some grad, some gs => some (⟨m.1.1, grad, rand (base + sampleSize)⟩ :: gs)
    | _, _ => none

/-- Decoration of the whole interior list, in order. -/
def gradedOf (jssqrt : ℚ → ℚ) (rand : ℕ → ℚ) (points : List Point)
    (sampleSize : ℕ) (interior : List (Point × ℕ)) : Option (List GradPt) :=
  gradedOfAux jssqrt rand points sampleSize (withIdx 0 interior)

/-- zGradientDownsampling from renderer/pointCloudReducer.js.  The jssqrt
parameter models Math.sqrt on float64; rand models the Math.random stream. -/
def zGradientDownsampling (jssqrt : ℚ → ℚ) (rand : ℕ → ℚ) (points : List Point)
    (targetPercentage : ℚ) (boundaryIndices : List ℕ := []) :
    Option (List Point) :=
  if 100 ≤ targetPercentage then some points
  else if points.length = 0 then some []
  else
    match lookupAll points boundaryIndices with
    | none => none
    | some boundaryPoints =>
      let interior := interiorWithIdx points boundaryIndices
      if interior.length = 0 then some points
      else
        let totalTarget : ℤ := max 1 ⌊(points.length : ℚ) * targetPercentage / 100⌋
        let interiorTarget : ℤ := max 1 (totalTarget - boundaryPoints.length)
        if totalTarget ≤ (boundaryPoints.length : ℤ) then some boundaryPoints
        else
          let sampleSize := min 10 (points.length - 1)
          match gradedOf jssqrt rand points sampleSize interior with
          | none => none
          | some graded =>
            some (boundaryPoints ++
              ((jsSort gradLeB graded).take interiorTarget.toNat).map
                (fun g => g.pt))

/-- reducePointCloud from renderer/pointCloudReducer.js: dispatch on the
method string; an unknown method returns the input unchanged. -/
def reducePointCloud (jspow : ℚ → ℚ → ℚ) (jssqrt : ℚ → ℚ) (rand : ℕ → ℚ)
    (points : List Point) (method : String) (targetPercentage : ℚ)
    (boundaryIndices : List ℕ := []) : Option (List Point) :=
  if method = "voxel" then voxelDownsampling jspow points targetPercentage boundaryIndices
  else if method = "zgradient" then
    zGradientDownsampling jssqrt rand points targetPercentage boundaryIndices
  else some points

/-- invertZValues: negate z on every point, everything else unchanged. -/
def invertZValues (points : List Point) : List Point :=
  points.map (fun p => { x := p.x, y := p.y, z := -p.z, r := p.r, g := p.g, b := p.b })

/-- Exactly d decimal digits of m (most significant first), left padded with
zeros; this is the digit string toFixed prints after the decimal point. -/
def padDigits : ℕ → ℕ → List Char
  | 0, _ => []
  | d + 1, m => padDigits d (m / 10) ++ [Nat.digitChar (m % 10)]

/-- Decimal digits of n, most significant first, using the first argument as
structural fuel (n itself always suffices); empty for n = 0. -/
def natDigitsAux : ℕ → ℕ → List Char
  | 0, _ => []
  | fuel + 1, n => if n = 0 then [] else natDigitsAux fuel (n / 10) ++ [Nat.digitChar (n % 10)]

/-- Decimal rendering of a natural number. -/
def natStr (n : ℕ) : String :=
  if n = 0 then "0" else String.mk (natDigitsAux n n)

/-- Decimal rendering of an integer, with a leading minus sign when
negative. -/
def intStr (z : ℤ) : String :=
  if z < 0 then "-" ++ natStr z.natAbs else natStr z.natAbs

/-- Number.prototype.toFixed on a nonnegative rational: round q * 10^d to the
nearest integer (ties toward the larger candidate, per the ECMA algorithm),
then print the integer part, and for d > 0 a dot followed by exactly d
fraction digits. -/
def jsToFixedNN (d : ℕ) (q : ℚ) : String :=
  let scaled : ℕ := (⌊q * (10 : ℚ) ^ d + 1/2⌋).toNat
  if d = 0 then natStr scaled
  else natStr (scaled / 10 ^ d) ++ "." ++ String.mk (padDigits d (scaled % 10 ^ d))

/-- Number.prototype.toFixed: negative values print a leading minus sign in
front of the rendering of their absolute value. -/
def jsToFixed (d : ℕ) (q : ℚ) : String :=
  if q < 0 then "-" ++ jsToFixedNN d (-q) else jsToFixedNN d q

/-- JS number-to-string conversion as used for the color channels in the
template literal: integral values (the only case arising for color data,
which the pipeline keeps integral) print exactly their decimal digits; a
non-integral value (out of contract) is approximated by fixed notation, JS
float-to-string printing having no exact rational counterpart. -/
def jsNumRepr (q : ℚ) : String :=
  if q.den = 1 then intStr q.num else jsToFixed 20 q

/-- One output line of exportToXYZ: the three coordinates via toFixed,
then the three color values iff r, g and b are all non-null, then a newline. -/
def pointLine (decimalPlaces : ℕ) (p : Point) : String :=
  jsToFixed decimalPlaces p.x ++ " " ++ jsToFixed decimalPlaces p.y ++ " " ++
    jsToFixed decimalPlaces p.z ++
    (match p.r, p.g, p.b with
     | some cr, some cg, some cb =>
       " " ++ jsNumRepr cr ++ " " ++ jsNumRepr cg ++ " " ++ jsNumRepr cb
     | _, _, _ => "") ++ "\n"

/-- exportToXYZ with the configurable decimalPlaces parameter (default 6):
concatenation, in order, of one line per point. -/
def exportToXYZ (points : List Point) (decimalPlaces : ℕ := 6) : String :=
  points.foldl (fun out p => out ++ pointLine decimalPlaces p) ""

/-- A JS number as produced by Number(token): a finite rational, NaN, or a
signed infinity. -/
inductive JNum where
  | fin (q : ℚ)
  | nan
  | inf
  | ninf
deriving DecidableEq, Repr

/-- Whether Number.isFinite holds. -/
def JNum.isFin : JNum → Bool
  | .fin _ => true
  | _ => false

/-- A point record as pushed by parseXYZ: the guard makes x, y, z finite
rationals, while each color channel is independently either absent
(undefined index coalesced to null by the ?? operator) or the raw Number value
of its token, which may be any JS number. -/
structure PPoint where
  x : ℚ
  y : ℚ
  z : ℚ
  r : Option JNum
  g : Option JNum
  b : Option JNum
deriving DecidableEq, Repr

/-- JS whitespace as matched by trim() and the token separator regex, for the
characters occurring in point files. -/
def isWs (c : Char) : Bool :=
  decide (c = ' ' ∨ c = '\t' ∨ c = '\n' ∨ c = '\r')

/-- Combined trim().split(regex of one or more whitespace characters): the
maximal whitespace-free runs of the line, in order. -/
def tokenize : List Char → List (List Char)
  | [] => []
  | c :: rest =>
    if isWs c then tokenize rest
    else (c :: rest.takeWhile (fun d => ¬ isWs d)) ::
      tokenize (rest.dropWhile (fun d => ¬ isWs d))
termination_by l => l.length
decreasing_by
  · simp
  · simp
    exact Nat.lt_succ_of_le (List.Sublist.length_le (rest.dropWhile_sublist _))

/-- Numeric value of a digit run. -/
def digitsVal (ds : List Char) : ℕ :=
  ds.foldl (fun a c => a * 10 + (c.toNat - 48)) 0

/-- Parse the unsigned mantissa of a decimal literal: digits, optionally
followed by a dot and more digits, or a dot followed by digits; at least one
digit must be present.  Returns the value and the unconsumed rest. -/
def parseMantissa (l : List Char) : Option (ℚ × List Char) :=
  let intDs := l.takeWhile (fun c => c.isDigit)
  let r1 := l.dropWhile (fun c => c.isDigit)
  match r1 with
  | '.' :: r2 =>
    let fracDs := r2.takeWhile (fun c => c.isDigit)
    let r3 := r2.dropWhile (fun c => c.isDigit)
    if intDs.isEmpty ∧ fracDs.isEmpty then none
    else some ((digitsVal intDs : ℚ) + (digitsVal fracDs : ℚ) / (10 : ℚ) ^ fracDs.length, r3)
  | _ => if intDs.isEmpty then none else some ((digitsVal intDs : ℚ), r1)

/-- Parse an optional exponent part: e or E, an optional sign, and at least
one digit; absent means exponent 0. -/
def parseExponent (l : List Char) : Option (ℤ × List Char) :=
  match l with
  | 'e' :: r | 'E' :: r =>
    let signed : ℤ × List Char :=
      match r with
      | '-' :: r2 => (-1, r2)
      | '+' :: r2 => (1, r2)
      | _ => (1, r)
    let ds := signed.2.takeWhile (fun c => c.isDigit)
    if ds.isEmpty then none
    else some (signed.1 * (digitsVal ds : ℤ), signed.2.dropWhile (fun c => c.isDigit))
  | _ => some (0, l)

/-- Value of a hex, octal or binary digit run in the given base, or none if
some character is not a digit of that base. -/
def radixVal (base : ℕ) (ds : List Char) : Option ℕ :=
  ds.foldlM
    (fun a c =>
      let v : ℕ :=
        if c.isDigit then c.toNat - 48
        else if 'a' ≤ c ∧ c ≤ 'f' then c.toNat - 87
        else if 'A' ≤ c ∧ c ≤ 'F' then c.toNat - 55
        else 99
      if v < base then some (a * base + v) else none)
    0

/-- Number(token) on an unsigned whitespace-free token: the empty token is 0,
Infinity is recognized, 0x/0o/0b radix literals are integer valued, and
otherwise a decimal literal with optional fraction and exponent; anything else
is NaN. -/
def jsNumberUnsigned (l : List Char) : JNum :=
  match l with
  | [] => .fin 0
  | 'I' :: _ => if l = "Infinity".data then .inf else .nan
  | '0' :: 'x' :: ds | '0' :: 'X' :: ds =>
    match radixVal 16 ds with
    | some v => if ds.isEmpty then .nan else .fin v
    | none => .nan
  | '0' :: 'o' :: ds | '0' :: 'O' :: ds =>
    match radixVal 8 ds with
    | some v => if ds.isEmpty then .nan else .fin v
    | none => .nan
  | '0' :: 'b' :: ds | '0' :: 'B' :: ds =>
    match radixVal 2 ds with
    | some v => if ds.isEmpty then .nan else .fin v
    | none => .nan
  | _ =>
    match parseMantissa l with
    | none => .nan
    | some (m, r1) =>
      match parseExponent r1 with
      | some (e, []) => .fin (m * (10 : ℚ) ^ e)
      | _ => .nan

/-- Number(token) for a nonempty whitespace-free token: strip an optional
sign (a sign on a radix literal makes it NaN, as in JS) and negate if needed. -/
def jsNumber (l : List Char) : JNum :=
  match l with
  | '-' :: r =>
    match r with
    | '0' :: 'x' :: _ | '0' :: 'X' :: _ | '0' :: 'o' :: _ | '0' :: 'O' :: _
    | '0' :: 'b' :: _ | '0' :: 'B' :: _ => .nan
    | _ =>
      match jsNumberUnsigned r with
      | .fin q => .fin (-q)
      | .inf => .ninf
      | _ => .nan
  | '+' :: r =>
    match r with
    | '0' :: 'x' :: _ | '0' :: 'X' :: _ | '0' :: 'o' :: _ | '0' :: 'O' :: _
    | '0' :: 'b' :: _ | '0' :: 'B' :: _ => .nan
    | _ => jsNumberUnsigned r
  | _ => jsNumberUnsigned l

/-- Process one accumulated line as the parser loop body does: skip it unless
the trimmed line is nonempty, its tokens number at least 3, and the first
three Number values are finite; otherwise build the point, with each color
channel the Number value of its token when present and null when the index is
out of range. -/
def lineToPoint (line : List Char) : Option PPoint :=
  let nums := (tokenize line).map jsNumber
  match nums[0]?, nums[1]?, nums[2]? with
  | some (JNum.fin q0), some (JNum.fin q1), some (JNum.fin q2) =>
    some ⟨q0, q1, q2, nums[3]?, nums[4]?, nums[5]?⟩
  | _, _, _ => none

/-- The character loop of parseXYZ: accumulate the current line, flush it on a
line terminator (treating a CR LF pair as one terminator), and flush the final
line at end of input. -/
def parseXYZAux : List Char → List Char → List PPoint
  | [], cur => (lineToPoint cur).toList
  | '\n' :: rest, cur => (lineToPoint cur).toList ++ parseXYZAux rest []
  | '\r' :: '\n' :: rest, cur => (lineToPoint cur).toList ++ parseXYZAux rest []
  | '\r' :: rest, cur => (lineToPoint cur).toList ++ parseXYZAux rest []
  | c :: rest, cur => parseXYZAux rest (cur ++ [c])

/-- parseXYZ from renderer/xyzParser.js. -/
def parseXYZ (text : String) : List PPoint :=
  parseXYZAux text.data []

/-! ### Boundary detection modes (volumetric branch modelled from the spec) -/

/-- Horizontal position of a point. -/
def pos2 (p : Point) : ℚ × ℚ := (p.x, p.y)

/-- Spatial position of a point. -/
def pos3 (p : Point) : ℚ × ℚ × ℚ := (p.x, p.y, p.z)

/-- Spatial positions of the points at indices other than i. -/
def otherPos3 (pts : List Point) (i : ℕ) : Set (ℚ × ℚ × ℚ) :=
  {v | ∃ j, ∃ h : j < pts.length, j ≠ i ∧ v = pos3 (pts.get ⟨j, h⟩)}

/-- Modelled from the spec: the volumetric (3D) detection mode, absent from
the code under src (the repository documentation describes an earlier 3D
variant of identifyBoundaryPoints).  Per the spec it computes the 3D convex
hull of all points and returns the indices of the points forming the hull's
surface vertices; a point is a hull vertex precisely when it is not in the
convex hull of the other points. -/
def identifyBoundaryPoints3D (pts : List Point) : Set ℕ :=
  {i | ∃ h : i < pts.length, pos3 (pts.get ⟨i, h⟩) ∉ convexHull ℚ (otherPos3 pts i)}

/-- Detection mode: horizontal (2D, the default) or volumetric (3D). -/
inductive BoundaryMode where
  | horizontal
  | volumetric

/-- Modelled from the spec: identifyBoundaryPoints(points, mode) with mode
selecting horizontal (2D) or volumetric (3D) detection and defaulting to
horizontal.  The horizontal branch is the function implemented in
renderer/pointCloudReducer.js; the volumetric branch is modelled from the
spec, the mode parameter itself being absent from the code under src. -/
def identifyBoundaryPointsM (pts : List Point)
    (mode : BoundaryMode := BoundaryMode.horizontal) : Set ℕ :=
  match mode with
  | BoundaryMode.horizontal => ↑(identifyBoundaryPoints pts)
  | BoundaryMode.volumetric => identifyBoundaryPoints3D pts

/-- Strict lexicographic order on projected positions (index-blind). -/
def lexLt (u v : P2) : Prop :=
  u.x < v.x ∨ (u.x = v.x ∧ u.y < v.y)

/-- The horizontal position of a projected point. -/
def p2pos (u : P2) : ℚ × ℚ := (u.x, u.y)

/-- Horizontal positions of the points at indices other than i. -/
def otherPos2 (pts : List Point) (i : ℕ) : Set (ℚ × ℚ) :=
  {v | ∃ j, ∃ h : j < pts.length, j ≠ i ∧ v = pos2 (pts.get ⟨j, h⟩)}

/-- Strictly convex position: the horizontal positions are pairwise distinct
and every point lies outside the convex hull of the others, i.e. the cloud is
the vertex set of a convex polygon. -/
def StrictConvexPos (pts : List Point) : Prop :=
  List.Pairwise (fun p q : Point => pos2 p ≠ pos2 q) pts ∧
    ∀ i, ∀ h : i < pts.length, pos2 (pts.get ⟨i, h⟩) ∉ convexHull ℚ (otherPos2 pts i)

/-! ### Concrete fixtures used by counterexamples and witnesses -/

/-- The vertex set of a right triangle, in strictly convex position. -/
def tri3 : List Point :=
  [⟨0, 0, 0, none, none, none⟩, ⟨1, 0, 0, none, none, none⟩,
   ⟨0, 1, 0, none, none, none⟩]

/-- The 8 corners of the unit cube (indices 0 to 7) followed by the single
interior point (1/2, 1/2, 1/2) at index 8. -/
def cube9 : List Point :=
  [⟨0, 0, 0, none, none, none⟩, ⟨1, 0, 0, none, none, none⟩,
   ⟨0, 1, 0, none, none, none⟩, ⟨1, 1, 0, none, none, none⟩,
   ⟨0, 0, 1, none, none, none⟩, ⟨1, 0, 1, none, none, none⟩,
   ⟨0, 1, 1, none, none, none⟩, ⟨1, 1, 1, none, none, none⟩,
   ⟨1/2, 1/2, 1/2, none, none, none⟩]

/-- Five coplanar points (all z = 0, so the interior bounding box has zero
volume); index 4 will serve as the boundary set. -/
def ex5 : List Point :=
  [⟨0, 0, 0, none, none, none⟩, ⟨1, 0, 0, none, none, none⟩,
   ⟨0, 1, 0, none, none, none⟩, ⟨1, 1, 0, none, none, none⟩,
   ⟨2, 2, 0, none, none, none⟩]

/-- Three collinear points with constant z: every gradient score is 0, so the
zgradient sort is decided purely by the random tiebreakers. -/
def zpts : List Point :=
  [⟨0, 0, 0, none, none, none⟩, ⟨3, 0, 0, none, none, none⟩,
   ⟨6, 0, 0, none, none, none⟩]

/-- A random stream whose tiebreaker draws (positions 2, 5, 8) are
0.1, 0.9, 0.5. -/
def rngA : ℕ → ℚ := fun n =>
  if n = 2 then 1/10 else if n = 5 then 9/10 else if n = 8 then 1/2 else 0

/-- A random stream whose tiebreaker draws (positions 2, 5, 8) are
0.9, 0.1, 0.5. -/
def rngB : ℕ → ℚ := fun n =>
  if n = 2 then 9/10 else if n = 5 then 1/10 else if n = 8 then 1/2 else 0

/-- Four points whose (x, y) projections are (0,0), (1,0), (0,1), (0,0):
indices 0 and 3 share a projected position on the hull but have different z. -/
def c7pts : List Point :=
  [⟨0, 0, 0, none, none, none⟩, ⟨1, 0, 0, none, none, none⟩,
   ⟨0, 1, 0, none, none, none⟩, ⟨0, 0, 5, none, none, none⟩]

/-! ### Lemmas about the stable sort -/

theorem insSorted_perm {α : Type} (le : α → α → Bool) (a : α) :
    ∀ l : List α, List.Perm (insSorted le a l) (a :: l)
  | [] => List.Perm.refl _
  | b :: l => by
    unfold insSorted
    by_cases h : le a b
    · rw [if_pos h]
    · rw [if_neg h]
      exact List.Perm.trans ((insSorted_perm le a l).cons b) (List.Perm.swap _ _ _)

theorem jsSort_perm {α : Type} (le : α → α → Bool) :
    ∀ l : List α, List.Perm (jsSort le l) l
  | [] => List.Perm.refl _
  | a :: l => List.Perm.trans (insSorted_perm le a _) ((jsSort_perm le l).cons a)

theorem mem_jsSort {α : Type} {le : α → α → Bool} {l : List α} {a : α} :
    a ∈ jsSort le l ↔ a ∈ l :=
  (jsSort_perm le l).mem_iff

theorem insSorted_pairwise {α : Type} {le : α → α → Bool}
    (htrans : ∀ a b c, le a b → le b c → le a c)
    (htotal : ∀ a b, le a b ∨ le b a) (a : α) :
    ∀ l : List α, l.Pairwise (fun u v => le u v) →
      (insSorted le a l).Pairwise (fun u v => le u v)
  | [], _ => by simp [insSorted]
  | b :: l, h => by
    unfold insSorted
    by_cases hab : le a b
    · rw [if_pos hab]
      refine List.Pairwise.cons ?_ h
      intro c hc
      rcases List.mem_cons.mp hc with rfl | hc
      · exact hab
      · exact htrans a b c hab (List.rel_of_pairwise_cons h hc)
    · rw [if_neg hab]
      have hba : le b a := (htotal a b).resolve_left (fun h1 => hab h1)
      refine List.Pairwise.cons ?_ (insSorted_pairwise htrans htotal a l h.tail)
      intro c hc
      rcases List.mem_cons.mp ((insSorted_perm le a l).mem_iff.mp hc) with rfl | h2
      · exact hba
      · exact List.rel_of_pairwise_cons h h2

theorem jsSort_pairwise {α : Type} {le : α → α → Bool}
    (htrans : ∀ a b c, le a b → le b c → le a c)
    (htotal : ∀ a b, le a b ∨ le b a) :
    ∀ l : List α, (jsSort le l).Pairwise (fun u v => le u v)
  | [] => by simp [jsSort]
  | a :: l => insSorted_pairwise htrans htotal a _ (jsSort_pairwise htrans htotal l)

/-! ### Structural lemmas about the monotone chain -/

theorem hullStep_mem : ∀ (stack : List P2) (p q : P2),
    q ∈ hullStep stack p → q = p ∨ q ∈ stack
  | [], p, q, h => by
    simp only [hullStep, List.mem_singleton] at h
    exact Or.inl h
  | [a], p, q, h => by
    simp only [hullStep, List.mem_cons, List.mem_singleton] at h
    simpa using h
  | t :: s :: rest, p, q, h => by
    rw [hullStep] at h
    by_cases hc : cross s t p ≤ 0
    · rw [if_pos hc] at h
      rcases hullStep_mem (s :: rest) p q h with h1 | h1
      · exact Or.inl h1
      · exact Or.inr (List.mem_cons_of_mem _ h1)
    · rw [if_neg hc] at h
      simpa using h

theorem foldl_hullStep_mem : ∀ (l : List P2) (s : List P2) (q : P2),
    q ∈ l.foldl hullStep s → q ∈ s ∨ q ∈ l
  | [], s, q, h => Or.inl h
  | c :: rest, s, q, h => by
    rcases foldl_hullStep_mem rest (hullStep s c) q h with h1 | h1
    · rcases hullStep_mem s c q h1 with h2 | h2
      · exact Or.inr (by simp [h2])
      · exact Or.inl h2
    · exact Or.inr (List.mem_cons_of_mem _ h1)

theorem chain_subset {l : List P2} {q : P2} (h : q ∈ chain l) : q ∈ l := by
  rcases foldl_hullStep_mem l [] q h with h1 | h1
  · simp at h1
  · exact h1

theorem convexHull2D_subset {pts : List P2} {q : P2}
    (h : q ∈ convexHull2D pts) : q ∈ pts := by
  unfold convexHull2D at h
  by_cases hl : pts.length < 3
  · rwa [if_pos hl] at h
  · rw [if_neg hl, List.mem_append] at h
    rcases h with h1 | h1
    · have := chain_subset (List.mem_of_mem_tail (List.mem_reverse.mp h1))
      exact mem_jsSort.mp this
    · have := chain_subset (List.mem_of_mem_tail (List.mem_reverse.mp h1))
      rw [List.mem_reverse] at this
      exact mem_jsSort.mp this

theorem mem_projIdx : ∀ (pts : List Point) (i : ℕ) (q : P2),
    q ∈ projIdx i pts ↔
      ∃ j, ∃ h : j < pts.length,
        q = ⟨(pts.get ⟨j, h⟩).x, (pts.get ⟨j, h⟩).y, i + j⟩
  | [], i, q => by simp [projIdx]
  | p :: rest, i, q => by
    simp only [projIdx, List.mem_cons, mem_projIdx rest (i + 1) q]
    constructor
    · rintro (h | ⟨j, hj, rfl⟩)
      · exact ⟨0, by simp, by simpa using h⟩
      · exact ⟨j + 1, by simpa using hj, by simp; omega⟩
    · rintro ⟨j, hj, rfl⟩
      match j with
      | 0 => exact Or.inl (by simp)
      | j + 1 =>
        refine Or.inr ⟨j, by simpa using hj, ?_⟩
        simp
        omega

theorem projIdx_index_lt {pts : List Point} {i : ℕ} {q : P2}
    (h : q ∈ projIdx i pts) : q.index < i + pts.length := by
  rcases (mem_projIdx pts i q).mp h with ⟨j, hj, rfl⟩
  simpa using Nat.add_lt_add_left hj i

theorem identifyBoundaryPoints_subset (pts : List Point) :
    identifyBoundaryPoints pts ⊆ Finset.range pts.length := by
  intro i hi
  unfold identifyBoundaryPoints at hi
  by_cases h0 : pts.length = 0
  · rw [if_pos h0] at hi
    simp at hi
  · rw [if_neg h0] at hi
    by_cases h3 : pts.length < 3
    · rwa [if_pos h3] at hi
    · rw [if_neg h3] at hi
      simp only [List.mem_toFinset, List.mem_map] at hi
      rcases hi with ⟨q, hq, rfl⟩
      have hmem := convexHull2D_subset hq
      have := projIdx_index_lt hmem
      simpa using Finset.mem_range.mpr (by simpa using this)

/-- C9.  For every point cloud, the boundary set has size at most the number
of points, and every index it contains is a valid index into the cloud. -/
theorem identifyBoundaryPoints_size_le_and_valid (pts : List Point) :
    (identifyBoundaryPoints pts).card ≤ pts.length ∧
      ∀ i ∈ identifyBoundaryPoints pts, i < pts.length := by
  refine ⟨?_, fun i hi => Finset.mem_range.mp (identifyBoundaryPoints_subset pts hi)⟩
  calc (identifyBoundaryPoints pts).card
      ≤ (Finset.range pts.length).card :=
        Finset.card_le_card (identifyBoundaryPoints_subset pts)
    _ = pts.length := Finset.card_range _

theorem mem_identifyBoundaryPoints_of_hull {pts : List Point} {q : P2}
    (h3 : 3 ≤ pts.length) (hq : q ∈ convexHull2D (projIdx 0 pts)) :
    q.index ∈ identifyBoundaryPoints pts := by
  unfold identifyBoundaryPoints
  rw [if_neg (by omega), if_neg (by omega)]
  simp only [List.mem_toFinset, List.mem_map]
  exact ⟨q, hq, rfl⟩

/-- C7, counterexample.  In the cloud c7pts, indices 0 and 3 share the
projected position (0, 0) with different z, that position lies on the hull
(index 0 is returned), yet index 3 is not in the boundary set — so not all
original indices sharing a hull position are included. -/
theorem identical_xy_not_all_included :
    c7pts[0]? = some ⟨0, 0, 0, none, none, none⟩ ∧
      c7pts[3]? = some ⟨0, 0, 5, none, none, none⟩ ∧
      0 ∈ identifyBoundaryPoints c7pts ∧
      3 ∉ identifyBoundaryPoints c7pts := by
  have h : identifyBoundaryPoints c7pts = {0, 1, 2} := by
    norm_num [c7pts, identifyBoundaryPoints, convexHull2D, projIdx, jsSort,
      insSorted, jsLeB, chain, hullStep, cross]
  exact ⟨by simp [c7pts], by simp [c7pts], by rw [h]; decide, by rw [h]; decide⟩

/-- C7, amended.  Projected duplicates are not merged: when a projected
position lies on the computed 2D hull, at least one (but not necessarily
every) original index carrying that (x, y) is in the returned boundary set. -/
theorem hull_position_has_some_index (pts : List Point) (h3 : 3 ≤ pts.length)
    (a b : ℚ) (hq : ∃ q ∈ convexHull2D (projIdx 0 pts), q.x = a ∧ q.y = b) :
    ∃ i ∈ identifyBoundaryPoints pts, ∃ p, pts[i]? = some p ∧ p.x = a ∧ p.y = b := by
  rcases hq with ⟨q, hmem, hx, hy⟩
  refine ⟨q.index, mem_identifyBoundaryPoints_of_hull h3 hmem, ?_⟩
  have hin := convexHull2D_subset hmem
  rcases (mem_projIdx pts 0 q).mp hin with ⟨j, hj, rfl⟩
  refine ⟨pts.get ⟨j, hj⟩, ?_, by simpa using hx, by simpa using hy⟩
  simp [List.getElem?_eq_getElem hj]

/-- C7, witness for the amended theorem at the concrete cloud c7pts and hull
position (0, 0). -/
theorem hull_position_has_some_index_witness :
    ∃ i ∈ identifyBoundaryPoints c7pts,
      ∃ p, c7pts[i]? = some p ∧ p.x = 0 ∧ p.y = 0 :=
  hull_position_has_some_index c7pts (by simp [c7pts]) 0 0
    ⟨⟨0, 0, 0⟩, by
      norm_num [c7pts, convexHull2D, projIdx, jsSort, insSorted, jsLeB, chain,
        hullStep, cross], rfl, rfl⟩

/-! ### The degenerate-volume path of voxel downsampling (C2, C3) -/

/-- C2.  On the coplanar cloud ex5 with boundary set 4 and percentage 60,
voxelDownsampling takes the zero-volume fallback and returns the first two
points of the full list: the boundary point at index 4 is dropped from the
output, contradicting the function's own documentation that boundary points
are always preserved. -/
theorem boundary_dropped_on_degenerate_volume :
    ex5[4]? = some ⟨2, 2, 0, none, none, none⟩ ∧
      voxelDownsampling (fun _ _ => 0) ex5 60 [4] =
        some [⟨0, 0, 0, none, none, none⟩, ⟨1, 0, 0, none, none, none⟩] ∧
      (⟨2, 2, 0, none, none, none⟩ : Point) ∉
        [(⟨0, 0, 0, none, none, none⟩ : Point), ⟨1, 0, 0, none, none, none⟩] := by
  refine ⟨by simp [ex5], ?_, ?_⟩
  · norm_num [ex5, voxelDownsampling, lookupAll, interiorWithIdx, withIdx,
      minCoord, maxCoord]
    rfl
  · norm_num [List.mem_cons, Point.mk.injEq]

/-- C3, counterexample.  The degenerate fallback neither restricts itself to
interior points nor prepends the boundary points: the output is the first two
points of the full original list, not the boundary point followed by the first
two interior points. -/
theorem voxel_degenerate_not_boundary_prepended :
    voxelDownsampling (fun _ _ => 0) ex5 60 [4] =
      some [⟨0, 0, 0, none, none, none⟩, ⟨1, 0, 0, none, none, none⟩] ∧
      voxelDownsampling (fun _ _ => 0) ex5 60 [4] ≠
        some [⟨2, 2, 0, none, none, none⟩, ⟨0, 0, 0, none, none, none⟩,
          ⟨1, 0, 0, none, none, none⟩] := by
  have h : voxelDownsampling (fun _ _ => 0) ex5 60 [4] =
      some [⟨0, 0, 0, none, none, none⟩, ⟨1, 0, 0, none, none, none⟩] := by
    norm_num [ex5, voxelDownsampling, lookupAll, interiorWithIdx, withIdx,
      minCoord, maxCoord]
    rfl
  refine ⟨h, ?_⟩
  rw [h]
  intro hcontra
  have := Option.some.inj hcontra
  simp [Point.mk.injEq] at this

/-- C3, amended.  When the reduction is not short-circuited and the interior
bounding box has zero volume, voxelDownsampling returns the first
interiorTarget points of the full original list as the entire output (the
boundary points are not prepended); the result is always defined and does not
depend on the random stream or the float power function. -/
theorem voxel_degenerate_fallback (jspow : ℚ → ℚ → ℚ) (points : List Point)
    (pct : ℚ) (bnd : List ℕ) (bps : List Point)
    (hpct : ¬ 100 ≤ pct) (h0 : ¬ points.length = 0)
    (hb : lookupAll points bnd = some bps)
    (hi : ¬ ((interiorWithIdx points bnd).map (fun pi => pi.1)).length = 0)
    (hshort : ¬ (max 1 ⌊(points.length : ℚ) * pct / 100⌋ ≤ (bps.length : ℤ)))
    (hvol : (maxCoord (fun p => p.x) ((interiorWithIdx points bnd).map (fun pi => pi.1)) -
          minCoord (fun p => p.x) ((interiorWithIdx points bnd).map (fun pi => pi.1))) *
        (maxCoord (fun p => p.y) ((interiorWithIdx points bnd).map (fun pi => pi.1)) -
          minCoord (fun p => p.y) ((interiorWithIdx points bnd).map (fun pi => pi.1))) *
        (maxCoord (fun p => p.z) ((interiorWithIdx points bnd).map (fun pi => pi.1)) -
          minCoord (fun p => p.z) ((interiorWithIdx points bnd).map (fun pi => pi.1))) = 0) :
    voxelDownsampling jspow points pct bnd =
      some (points.take
        (max 1 (max 1 ⌊(points.length : ℚ) * pct / 100⌋ - bps.length)).toNat) := by
  rw [voxelDownsampling, if_neg hpct, if_neg h0, hb]
  simp only [if_neg hi, if_neg hshort, if_pos hvol]

/-- C3, witness for the amended theorem at the concrete coplanar cloud ex5. -/
theorem voxel_degenerate_fallback_witness :
    voxelDownsampling (fun _ _ => 0) ex5 60 [4] =
      some (ex5.take
        (max 1 (max 1 ⌊(ex5.length : ℚ) * 60 / 100⌋ - ([⟨2, 2, 0, none, none, none⟩] : List Point).length)).toNat) :=
  voxel_degenerate_fallback (fun _ _ => 0) ex5 60 [4] [⟨2, 2, 0, none, none, none⟩]
    (by norm_num) (by simp [ex5]) (by simp [lookupAll, ex5])
    (by norm_num [interiorWithIdx, withIdx, ex5])
    (by norm_num [ex5])
    (by norm_num [interiorWithIdx, withIdx, ex5, minCoord, maxCoord])

/-! ### Determinism of the core functions (C4) -/

/-- C4, counterexample.  zGradientDownsampling consults the random stream
(gradient sampling and tie-breaking), so two calls on the same points, method
and percentage can return different outputs: on three collinear flat points at
34 percent the surviving point is chosen by the random tiebreaker. -/
theorem zgradient_depends_on_random_stream :
    zGradientDownsampling (fun q => q) rngA zpts 34 [] =
        some [⟨3, 0, 0, none, none, none⟩] ∧
      zGradientDownsampling (fun q => q) rngB zpts 34 [] =
        some [⟨0, 0, 0, none, none, none⟩] ∧
      zGradientDownsampling (fun q => q) rngA zpts 34 [] ≠
        zGradientDownsampling (fun q => q) rngB zpts 34 [] := by
  have hA : zGradientDownsampling (fun q => q) rngA zpts 34 [] =
      some [⟨3, 0, 0, none, none, none⟩] := by
    norm_num [zpts, rngA, zGradientDownsampling, lookupAll, interiorWithIdx, withIdx,
      gradedOf, gradedOfAux, gradLoop, gradLoopAux, gradLeB, jsSort, insSorted,
      List.range_succ]
  have hB : zGradientDownsampling (fun q => q) rngB zpts 34 [] =
      some [⟨0, 0, 0, none, none, none⟩] := by
    norm_num [zpts, rngB, zGradientDownsampling, lookupAll, interiorWithIdx, withIdx,
      gradedOf, gradedOfAux, gradLoop, gradLoopAux, gradLeB, jsSort, insSorted,
      List.range_succ]
  refine ⟨hA, hB, ?_⟩
  rw [hA, hB]
  intro hcontra
  have := Option.some.inj hcontra
  simp [Point.mk.injEq] at this

/-- C4, amended.  identifyBoundaryPoints and reducePointCloud for every method
other than zgradient (voxel and the identity passthrough) are deterministic:
their output does not depend on the random stream or on the float square root,
so two calls with the same arguments agree; the zgradient method does consult
the random stream and is excluded. -/
theorem reduce_deterministic_except_zgradient (jspow : ℚ → ℚ → ℚ)
    (sqrt1 sqrt2 : ℚ → ℚ) (rand1 rand2 : ℕ → ℚ) (points : List Point)
    (method : String) (pct : ℚ) (bnd : List ℕ)
    (hm : method ≠ "zgradient") :
    reducePointCloud jspow sqrt1 rand1 points method pct bnd =
      reducePointCloud jspow sqrt2 rand2 points method pct bnd := by
  by_cases hv : method = "voxel"
  · simp [reducePointCloud, hv]
  · simp [reducePointCloud, hv, hm]

/-- C4, witness for the amended determinism theorem with the voxel method and
two different random streams and square roots. -/
theorem reduce_deterministic_except_zgradient_witness :
    reducePointCloud (fun _ _ => 0) (fun q => q) rngA ex5 "voxel" 60 [4] =
      reducePointCloud (fun _ _ => 0) (fun q => q + 1) rngB ex5 "voxel" 60 [4] :=
  reduce_deterministic_except_zgradient (fun _ _ => 0) (fun q => q) (fun q => q + 1)
    rngA rngB ex5 "voxel" 60 [4] (by decide)

/-! ### Safety of indexed accesses (C10) -/

theorem lookupAll_isSome (points : List Point) :
    ∀ bnd : List ℕ, (∀ i ∈ bnd, i < points.length) →
      ∃ bps, lookupAll points bnd = some bps
  | [], _ => ⟨[], rfl⟩
  | i :: rest, h => by
    rcases lookupAll_isSome points rest (fun j hj => h j (List.mem_cons_of_mem _ hj)) with
      ⟨bps, hb⟩
    have hi : i < points.length := h i (List.mem_cons_self _ _)
    refine ⟨points.get ⟨i, hi⟩ :: bps, ?_⟩
    rw [lookupAll, hb, List.getElem?_eq_getElem hi]
    simp

theorem gradLoopAux_isSome (jssqrt : ℚ → ℚ) (rand : ℕ → ℚ) (points : List Point)
    (p : Point) (idx : ℕ) (base : ℕ)
    (hrand : ∀ n, 0 ≤ rand n ∧ rand n < 1) (hlen : points.length ≠ 0) :
    ∀ (l : List ℕ) (acc : ℚ), ∃ v, gradLoopAux jssqrt rand points p idx base l acc = some v
  | [], acc => ⟨acc, rfl⟩
  | i :: rest, acc => by
    rw [gradLoopAux]
    by_cases hskip : (⌊rand (base + i) * (points.length : ℚ)⌋ : ℤ) = (idx : ℤ)
    · rw [if_pos hskip]
      exact gradLoopAux_isSome jssqrt rand points p idx base hrand hlen rest acc
    · rw [if_neg hskip]
      have h0 : (0 : ℤ) ≤ ⌊rand (base + i) * (points.length : ℚ)⌋ := by
        have := (hrand (base + i)).1
        positivity
      have hlt : ⌊rand (base + i) * (points.length : ℚ)⌋ < (points.length : ℤ) := by
        rw [Int.floor_lt]
        push_cast
        calc rand (base + i) * (points.length : ℚ)
            < 1 * (points.length : ℚ) := by
              apply mul_lt_mul_of_pos_right (hrand (base + i)).2
              have : 0 < points.length := Nat.pos_of_ne_zero hlen
              exact_mod_cast this
          _ = (points.length : ℚ) := one_mul _
      have hnat : (⌊rand (base + i) * (points.length : ℚ)⌋).toNat < points.length := by
        omega
      rw [if_pos h0, List.getElem?_eq_getElem hnat]
      simp only []
      split
      · exact gradLoopAux_isSome jssqrt rand points p idx base hrand hlen rest _
      · exact gradLoopAux_isSome jssqrt rand points p idx base hrand hlen rest acc

theorem gradedOfAux_isSome (jssqrt : ℚ → ℚ) (rand : ℕ → ℚ) (points : List Point)
    (sampleSize : ℕ)
    (hrand : ∀ n, 0 ≤ rand n ∧ rand n < 1) (hlen : points.length ≠ 0) :
    ∀ l : List ((Point × ℕ) × ℕ),
      ∃ gs, gradedOfAux jssqrt rand points sampleSize l = some gs
  | [] => ⟨[], rfl⟩
  | m :: rest => by
    rcases gradedOfAux_isSome jssqrt rand points sampleSize hrand hlen rest with ⟨gs, hgs⟩
    rcases gradLoopAux_isSome jssqrt rand points m.1.1 m.1.2 (m.2 * (sampleSize + 1))
        hrand hlen (List.range sampleSize) 0 with ⟨v, hv⟩
    refine ⟨⟨m.1.1, v, rand (m.2 * (sampleSize + 1) + sampleSize)⟩ :: gs, ?_⟩
    rw [gradedOfAux, gradLoop, hv, hgs]

/-- C10.  When every supplied boundary index is a valid index into the point
list (and the random stream stays in [0, 1) as Math.random does), neither
voxelDownsampling nor zGradientDownsampling ever reaches an out-of-range
array access: in the Option-returning embedding both always return some
output. -/
theorem downsampling_never_out_of_range (jspow : ℚ → ℚ → ℚ) (jssqrt : ℚ → ℚ)
    (rand : ℕ → ℚ) (points : List Point) (pct : ℚ) (bnd : List ℕ)
    (hbnd : ∀ i ∈ bnd, i < points.length)
    (hrand : ∀ n, 0 ≤ rand n ∧ rand n < 1) :
    (voxelDownsampling jspow points pct bnd).isSome ∧
      (zGradientDownsampling jssqrt rand points pct bnd).isSome := by
  rcases lookupAll_isSome points bnd hbnd with ⟨bps, hb⟩
  constructor
  · rw [voxelDownsampling]
    split
    · rfl
    · split
      · rfl
      · rw [hb]
        simp only []
        split_ifs <;> rfl
  · rw [zGradientDownsampling]
    split
    · rfl
    · split
      · rfl
      · rename_i hlen0
        rw [hb]
        simp only []
        split_ifs with h1 h2
        · rfl
        · rfl
        · rcases gradedOfAux_isSome jssqrt rand points
              (min 10 (points.length - 1)) hrand hlen0
              (withIdx 0 (interiorWithIdx points bnd)) with ⟨gs, hgs⟩
          rw [gradedOf] at *
          rw [hgs]
          rfl

/-- C10, witness at a concrete cloud, boundary set and bounded random
stream. -/
theorem downsampling_never_out_of_range_witness :
    (voxelDownsampling (fun _ _ => 0) zpts 34 [1]).isSome ∧
      (zGradientDownsampling (fun q => q) rngA zpts 34 [1]).isSome :=
  downsampling_never_out_of_range (fun _ _ => 0) (fun q => q) rngA zpts 34 [1]
    (by decide)
    (by intro n; unfold rngA; split_ifs <;> norm_num)

/-! ### Export format (C5) -/

theorem padDigits_length : ∀ d m : ℕ, (padDigits d m).length = d
  | 0, _ => rfl
  | d + 1, m => by
    rw [padDigits, List.length_append, padDigits_length d (m / 10)]
    simp

theorem digitChar_isDigit {n : ℕ} (h : n < 10) : (Nat.digitChar n).isDigit := by
  interval_cases n <;> decide

theorem padDigits_digits : ∀ (d m : ℕ), ∀ c ∈ padDigits d m, c.isDigit
  | 0, m => by simp [padDigits]
  | d + 1, m => by
    intro c hc
    rw [padDigits] at hc
    rcases List.mem_append.mp hc with h1 | h1
    · exact padDigits_digits d _ c h1
    · rw [List.mem_singleton.mp h1]
      exact digitChar_isDigit (Nat.mod_lt _ (by norm_num))

theorem natDigitsAux_digits : ∀ (fuel n : ℕ), ∀ c ∈ natDigitsAux fuel n, c.isDigit
  | 0, n => by simp [natDigitsAux]
  | fuel + 1, n => by
    intro c hc
    rw [natDigitsAux] at hc
    by_cases h0 : n = 0
    · rw [if_pos h0] at hc
      simp at hc
    · rw [if_neg h0] at hc
      rcases List.mem_append.mp hc with h1 | h1
      · exact natDigitsAux_digits fuel _ c h1
      · rw [List.mem_singleton.mp h1]
        exact digitChar_isDigit (Nat.mod_lt _ (by norm_num))

theorem natStr_digits (n : ℕ) : ∀ c ∈ (natStr n).data, c.isDigit := by
  unfold natStr
  split
  · intro c hc
    have hc0 : c = '0' := by simpa using hc
    rw [hc0]
    decide
  · exact natDigitsAux_digits n n

theorem intStr_chars (z : ℤ) : ∀ c ∈ (intStr z).data, c.isDigit ∨ c = '-' := by
  unfold intStr
  split
  · intro c hc
    rw [String.data_append] at hc
    rcases List.mem_append.mp hc with h | h
    · right
      simpa using h
    · exact Or.inl (natStr_digits _ c h)
  · exact fun c hc => Or.inl (natStr_digits _ c hc)

theorem jsToFixed_chars (d : ℕ) (q : ℚ) :
    ∀ c ∈ (jsToFixed d q).data, c.isDigit ∨ c = '.' ∨ c = '-' := by
  have hnn : ∀ r : ℚ, ∀ c ∈ (jsToFixedNN d r).data, c.isDigit ∨ c = '.' := by
    intro r c hc
    unfold jsToFixedNN at hc
    split at hc
    · exact Or.inl (natStr_digits _ c hc)
    · rw [String.data_append, String.data_append] at hc
      rcases List.mem_append.mp hc with h | h
      · rcases List.mem_append.mp h with h1 | h1
        · exact Or.inl (natStr_digits _ c h1)
        · right
          simpa using h1
      · exact Or.inl (padDigits_digits _ _ c h)
  unfold jsToFixed
  split
  · intro c hc
    rw [String.data_append] at hc
    rcases List.mem_append.mp hc with h | h
    · right; right
      simpa using h
    · rcases hnn _ c h with h1 | h1
      · exact Or.inl h1
      · exact Or.inr (Or.inl h1)
  · intro c hc
    rcases hnn _ c hc with h1 | h1
    · exact Or.inl h1
    · exact Or.inr (Or.inl h1)

theorem jsNumRepr_chars (q : ℚ) :
    ∀ c ∈ (jsNumRepr q).data, c.isDigit ∨ c = '.' ∨ c = '-' := by
  unfold jsNumRepr
  split
  · intro c hc
    rcases intStr_chars _ c hc with h | h
    · exact Or.inl h
    · exact Or.inr (Or.inr h)
  · exact jsToFixed_chars 20 q

theorem count_nl_zero {s : String}
    (h : ∀ c ∈ s.data, c.isDigit ∨ c = '.' ∨ c = '-') : s.data.count '\n' = 0 := by
  refine List.count_eq_zero.mpr (fun hmem => ?_)
  rcases h _ hmem with h1 | h1 | h1 <;> simp at h1

theorem pointLine_count (d : ℕ) (p : Point) : (pointLine d p).data.count '\n' = 1 := by
  have hx := count_nl_zero (s := jsToFixed d p.x) (jsToFixed_chars d p.x)
  have hy := count_nl_zero (s := jsToFixed d p.y) (jsToFixed_chars d p.y)
  have hz := count_nl_zero (s := jsToFixed d p.z) (jsToFixed_chars d p.z)
  rcases p with ⟨x, y, z, r, g, b⟩
  rcases r with _ | cr <;> rcases g with _ | cg <;> rcases b with _ | cb <;>
    simp_all [pointLine, List.count_append, List.count_singleton,
      count_nl_zero (jsNumRepr_chars _)]

theorem exportToXYZ_foldl_count (d : ℕ) :
    ∀ (pts : List Point) (init : String),
      (pts.foldl (fun out p => out ++ pointLine d p) init).data.count '\n' =
        init.data.count '\n' + pts.length
  | [], init => by simp
  | p :: rest, init => by
    rw [List.foldl_cons, exportToXYZ_foldl_count d rest]
    rw [String.data_append, List.count_append, pointLine_count]
    simp only [List.length_cons]
    omega

theorem join_cons (s : String) (l : List String) :
    String.join (s :: l) = s ++ String.join l := by
  apply String.ext
  simp [String.join_eq]

theorem exportToXYZ_foldl_join (d : ℕ) :
    ∀ (pts : List Point) (init : String),
      pts.foldl (fun out p => out ++ pointLine d p) init =
        init ++ String.join (pts.map (pointLine d))
  | [], init => by simp [String.join]
  | p :: rest, init => by
    rw [List.foldl_cons, exportToXYZ_foldl_join d rest, List.map_cons, join_cons,
      String.append_assoc]

theorem jsToFixed_decomp (d : ℕ) (hd : d ≠ 0) (q : ℚ) :
    ∃ pre frac : String,
      jsToFixed d q = pre ++ "." ++ frac ∧ frac.length = d ∧
        (∀ c ∈ frac.data, c.isDigit) ∧ ∀ c ∈ pre.data, c.isDigit ∨ c = '-' := by
  unfold jsToFixed jsToFixedNN
  split
  · refine ⟨"-" ++ natStr ((⌊-q * (10 : ℚ) ^ d + 1/2⌋).toNat / 10 ^ d),
      String.mk (padDigits d ((⌊-q * (10 : ℚ) ^ d + 1/2⌋).toNat % 10 ^ d)), ?_, ?_, ?_, ?_⟩
    · simp [if_neg hd, String.append_assoc]
    · rw [String.length_mk, padDigits_length]
    · exact padDigits_digits _ _
    · intro c hc
      rw [String.data_append] at hc
      rcases List.mem_append.mp hc with h | h
      · right
        simpa using h
      · exact Or.inl (natStr_digits _ c h)
  · refine ⟨natStr ((⌊q * (10 : ℚ) ^ d + 1/2⌋).toNat / 10 ^ d),
      String.mk (padDigits d ((⌊q * (10 : ℚ) ^ d + 1/2⌋).toNat % 10 ^ d)), ?_, ?_, ?_, ?_⟩
    · simp [if_neg hd]
    · rw [String.length_mk, padDigits_length]
    · exact padDigits_digits _ _
    · exact fun c hc => Or.inl (natStr_digits _ c hc)

/-- C5.  exportToXYZ (decimalPlaces defaulting to 6 in the definition) emits
exactly one newline per point, is the concatenation of one rendered line per
point in order, each line being the three toFixed coordinates and the color
triple exactly when all three channels are present, and every toFixed
coordinate carries exactly decimalPlaces digits after its decimal point. -/
theorem exportToXYZ_one_line_per_point (pts : List Point) (d : ℕ) (hd : d ≠ 0) :
    (exportToXYZ pts d).data.count '\n' = pts.length ∧
      exportToXYZ pts d = String.join (pts.map (pointLine d)) ∧
      (∀ p : Point,
        (p.r.isSome ∧ p.g.isSome ∧ p.b.isSome →
          pointLine d p =
            jsToFixed d p.x ++ " " ++ jsToFixed d p.y ++ " " ++ jsToFixed d p.z ++
              (" " ++ jsNumRepr (p.r.getD 0) ++ " " ++ jsNumRepr (p.g.getD 0) ++
                " " ++ jsNumRepr (p.b.getD 0)) ++ "\n") ∧
        (¬(p.r.isSome ∧ p.g.isSome ∧ p.b.isSome) →
          pointLine d p =
            jsToFixed d p.x ++ " " ++ jsToFixed d p.y ++ " " ++ jsToFixed d p.z ++ "\n")) ∧
      ∀ q : ℚ, ∃ pre frac : String,
        jsToFixed d q = pre ++ "." ++ frac ∧ frac.length = d ∧
          (∀ c ∈ frac.data, c.isDigit) ∧ ∀ c ∈ pre.data, c.isDigit ∨ c = '-' := by
  refine ⟨?_, ?_, ?_, jsToFixed_decomp d hd⟩
  · rw [exportToXYZ, exportToXYZ_foldl_count]
    simp
  · rw [exportToXYZ, exportToXYZ_foldl_join]
    have : ("" : String) ++ String.join (pts.map (pointLine d)) =
        String.join (pts.map (pointLine d)) := by
      apply String.ext
      simp
    rw [this]
  · intro p
    rcases p with ⟨x, y, z, r, g, b⟩
    rcases r with _ | cr <;> rcases g with _ | cg <;> rcases b with _ | cb <;>
      constructor <;> intro h <;> simp_all [pointLine]

/-- C5, witness at a two-point list (one colored point, one colorless) with
the default precision 6. -/
theorem exportToXYZ_one_line_per_point_witness :
    (6 : ℕ) ≠ 0 ∧
      (exportToXYZ [⟨3/2, -2, 3, some 255, some 128, some 0⟩,
        ⟨1/10, 0, 2, none, some 1, some 2⟩] 6).data.count '\n' = 2 :=
  ⟨by norm_num,
    (exportToXYZ_one_line_per_point
      [⟨3/2, -2, 3, some 255, some 128, some 0⟩, ⟨1/10, 0, 2, none, some 1, some 2⟩]
      6 (by norm_num)).1⟩

/-! ### Parser color channels (C6) -/

/-- C6, counterexample.  A line with exactly four numeric fields parses to a
point whose r channel is present while g and b are null: a partially colored
point, contradicting the all-or-absent claim. -/
theorem parser_partial_color :
    parseXYZ "1 2 3 4\n" = [⟨1, 2, 3, some (JNum.fin 4), none, none⟩] ∧
      (some (JNum.fin 4)).isSome = true ∧ (none : Option JNum).isSome = false := by
  refine ⟨?_, rfl, rfl⟩
  simp +decide [parseXYZ, parseXYZAux, lineToPoint, tokenize, isWs, jsNumber,
    jsNumberUnsigned, parseMantissa, parseExponent, digitsVal, radixVal]

theorem parseXYZAux_mem (chars cur : List Char) (pt : PPoint)
    (h : pt ∈ parseXYZAux chars cur) : ∃ l, lineToPoint l = some pt := by
  induction chars, cur using parseXYZAux.induct generalizing pt with
  | case1 cur =>
    rw [parseXYZAux] at h
    exact ⟨cur, by simpa [Option.mem_toList] using h⟩
  | case2 rest cur ih =>
    rw [parseXYZAux] at h
    rcases List.mem_append.mp h with h1 | h1
    · exact ⟨cur, by simpa [Option.mem_toList] using h1⟩
    · exact ih pt h1
  | case3 rest cur ih =>
    rw [parseXYZAux] at h
    rcases List.mem_append.mp h with h1 | h1
    · exact ⟨cur, by simpa [Option.mem_toList] using h1⟩
    · exact ih pt h1
  | case4 rest cur hne ih =>
    rw [parseXYZAux] at h
    · rcases List.mem_append.mp h with h1 | h1
      · exact ⟨cur, by simpa [Option.mem_toList] using h1⟩
      · exact ih pt h1
    · exact hne
  | case5 c rest cur h1 h2 h3 ih =>
    rw [parseXYZAux] at h
    · exact ih pt h
    · exact h1
    · exact h2
    · exact h3

/-- C6, amended.  Parsed color channels are filled positionally from the
left: for every input text and parsed point, a non-null b implies a non-null
g and a non-null g implies a non-null r; a point may still be partially
colored (r only, or r and g only) when the line has 4 or 5 numeric fields. -/
theorem colors_filled_left_to_right (text : String) (pt : PPoint)
    (h : pt ∈ parseXYZ text) :
    (pt.b.isSome → pt.g.isSome) ∧ (pt.g.isSome → pt.r.isSome) := by
  rcases parseXYZAux_mem text.data [] pt h with ⟨l, hl⟩
  unfold lineToPoint at hl
  dsimp only at hl
  split at hl
  · rcases Option.some.inj hl with rfl
    constructor
    · intro hb
      have hb5 : ((tokenize l)[5]?).isSome = true := by simpa using hb
      have hlen : 5 < (tokenize l).length := by
        by_contra hle
        push_neg at hle
        rw [List.getElem?_eq_none hle] at hb5
        simp at hb5
      have h4 : ((tokenize l)[4]?).isSome = true := by
        rw [List.getElem?_eq_getElem (show 4 < (tokenize l).length by omega)]
        rfl
      simpa using h4
    · intro hg
      have hg4 : ((tokenize l)[4]?).isSome = true := by simpa using hg
      have hlen : 4 < (tokenize l).length := by
        by_contra hle
        push_neg at hle
        rw [List.getElem?_eq_none hle] at hg4
        simp at hg4
      have h3 : ((tokenize l)[3]?).isSome = true := by
        rw [List.getElem?_eq_getElem (show 3 < (tokenize l).length by omega)]
        rfl
      simpa using h3
  · exact absurd hl (by simp)

/-- C6, witness for the amended theorem at the four-field line. -/
theorem colors_filled_left_to_right_witness :
    ((⟨1, 2, 3, some (JNum.fin 4), none, none⟩ : PPoint).b.isSome →
        (⟨1, 2, 3, some (JNum.fin 4), none, none⟩ : PPoint).g.isSome) ∧
      ((⟨1, 2, 3, some (JNum.fin 4), none, none⟩ : PPoint).g.isSome →
        (⟨1, 2, 3, some (JNum.fin 4), none, none⟩ : PPoint).r.isSome) :=
  colors_filled_left_to_right "1 2 3 4\n" ⟨1, 2, 3, some (JNum.fin 4), none, none⟩
    (by simp +decide [parseXYZ, parseXYZAux, lineToPoint, tokenize, isWs, jsNumber,
      jsNumberUnsigned, parseMantissa, parseExponent, digitsVal, radixVal])

/-! ### The volumetric mode on the cube fixture (C1) -/

theorem not_mem_convexHull_of_sep {s : Set (ℚ × ℚ × ℚ)} {q : ℚ × ℚ × ℚ}
    (a b c r : ℚ) (hs : ∀ v ∈ s, r ≤ a * v.1 + b * v.2.1 + c * v.2.2)
    (hq : a * q.1 + b * q.2.1 + c * q.2.2 < r) :
    q ∉ convexHull ℚ s := by
  intro hmem
  have hlin : IsLinearMap ℚ (fun v : ℚ × ℚ × ℚ => a * v.1 + b * v.2.1 + c * v.2.2) := by
    constructor
    · intro u v
      simp only [Prod.fst_add, Prod.snd_add]
      ring
    · intro t v
      simp only [Prod.smul_fst, Prod.smul_snd, smul_eq_mul]
      ring
  have hsub : convexHull ℚ s ⊆ {v | r ≤ a * v.1 + b * v.2.1 + c * v.2.2} :=
    convexHull_min hs (convex_halfSpace_ge hlin r)
  exact absurd (hsub hmem) (not_le.mpr hq)

theorem cube9_center_mem_hull :
    ((1 : ℚ)/2, (1 : ℚ)/2, (1 : ℚ)/2) ∈ convexHull ℚ (otherPos3 cube9 8) := by
  have h0 : ((0 : ℚ), (0 : ℚ), (0 : ℚ)) ∈ otherPos3 cube9 8 :=
    ⟨0, by norm_num [cube9], by norm_num, by norm_num [cube9, pos3]⟩
  have h7 : ((1 : ℚ), (1 : ℚ), (1 : ℚ)) ∈ otherPos3 cube9 8 :=
    ⟨7, by norm_num [cube9], by norm_num, by norm_num [cube9, pos3]⟩
  refine segment_subset_convexHull h0 h7 ⟨1/2, 1/2, by norm_num, by norm_num, by norm_num, ?_⟩
  refine Prod.ext ?_ (Prod.ext ?_ ?_) <;>
    simp [Prod.smul_fst, Prod.smul_snd, smul_eq_mul]

/-- C1.  The volumetric (3D) detection mode, applied to the 8 corners of the
unit cube plus the single interior point (1/2, 1/2, 1/2), returns exactly the
8 corner indices and excludes the center. -/
theorem cube_volumetric_boundary :
    identifyBoundaryPointsM cube9 BoundaryMode.volumetric = {i : ℕ | i < 8} := by
  have hlen : cube9.length = 9 := by norm_num [cube9]
  ext i
  simp only [identifyBoundaryPointsM, identifyBoundaryPoints3D, Set.mem_setOf_eq]
  constructor
  · rintro ⟨h9, hext⟩
    rw [hlen] at h9
    by_contra h8
    push_neg at h8
    have hi8 : i = 8 := by omega
    subst hi8
    refine hext ?_
    have : pos3 (cube9.get ⟨8, by rw [hlen]; omega⟩) = ((1 : ℚ)/2, (1 : ℚ)/2, (1 : ℚ)/2) := by
      norm_num [cube9, pos3]
    rw [this]
    exact cube9_center_mem_hull
  · intro h8
    have h9 : i < cube9.length := by omega
    refine ⟨h9, ?_⟩
    interval_cases i
    · refine not_mem_convexHull_of_sep 1 1 1 1 ?_ (by norm_num [cube9, pos3])
      rintro v ⟨j, hj, hne, rfl⟩
      have hj9 : j < 9 := by omega
      interval_cases j <;> first | exact absurd rfl hne | norm_num [cube9, pos3]
    · refine not_mem_convexHull_of_sep (-1) 1 1 0 ?_ (by norm_num [cube9, pos3])
      rintro v ⟨j, hj, hne, rfl⟩
      have hj9 : j < 9 := by omega
      interval_cases j <;> first | exact absurd rfl hne | norm_num [cube9, pos3]
    · refine not_mem_convexHull_of_sep 1 (-1) 1 0 ?_ (by norm_num [cube9, pos3])
      rintro v ⟨j, hj, hne, rfl⟩
      have hj9 : j < 9 := by omega
      interval_cases j <;> first | exact absurd rfl hne | norm_num [cube9, pos3]
    · refine not_mem_convexHull_of_sep (-1) (-1) 1 (-1) ?_ (by norm_num [cube9, pos3])
      rintro v ⟨j, hj, hne, rfl⟩
      have hj9 : j < 9 := by omega
      interval_cases j <;> first | exact absurd rfl hne | norm_num [cube9, pos3]
    · refine not_mem_convexHull_of_sep 1 1 (-1) 0 ?_ (by norm_num [cube9, pos3])
      rintro v ⟨j, hj, hne, rfl⟩
      have hj9 : j < 9 := by omega
      interval_cases j <;> first | exact absurd rfl hne | norm_num [cube9, pos3]
    · refine not_mem_convexHull_of_sep (-1) 1 (-1) (-1) ?_ (by norm_num [cube9, pos3])
      rintro v ⟨j, hj, hne, rfl⟩
      have hj9 : j < 9 := by omega
      interval_cases j <;> first | exact absurd rfl hne | norm_num [cube9, pos3]
    · refine not_mem_convexHull_of_sep 1 (-1) (-1) (-1) ?_ (by norm_num [cube9, pos3])
      rintro v ⟨j, hj, hne, rfl⟩
      have hj9 : j < 9 := by omega
      interval_cases j <;> first | exact absurd rfl hne | norm_num [cube9, pos3]
    · refine not_mem_convexHull_of_sep (-1) (-1) (-1) (-2) ?_ (by norm_num [cube9, pos3])
      rintro v ⟨j, hj, hne, rfl⟩
      have hj9 : j < 9 := by omega
      interval_cases j <;> first | exact absurd rfl hne | norm_num [cube9, pos3]

/-! ### Monotone-chain completeness on strictly convex input (C8) -/

theorem hullStep_shape : ∀ (stack : List P2) (p : P2),
    ∃ tl, hullStep stack p = p :: tl ∧ tl.IsSuffix stack
  | [], p => ⟨[], rfl, List.nil_suffix⟩
  | [a], p => ⟨[a], rfl, List.suffix_refl _⟩
  | t :: s :: rest, p => by
    rw [hullStep]
    by_cases hc : cross s t p ≤ 0
    · rw [if_pos hc]
      rcases hullStep_shape (s :: rest) p with ⟨tl, heq, hsuf⟩
      exact ⟨tl, heq, hsuf.trans (List.suffix_cons _ _)⟩
    · rw [if_neg hc]
      exact ⟨t :: s :: rest, rfl, List.suffix_refl _⟩

theorem hullStep_getLast? (stack : List P2) (p : P2) (h : stack ≠ []) :
    (hullStep stack p).getLast? = stack.getLast? := by
  induction stack with
  | nil => exact absurd rfl h
  | cons t rest ih =>
    match rest with
    | [] => rfl
    | s :: rest2 =>
      rw [hullStep]
      by_cases hc : cross s t p ≤ 0
      · rw [if_pos hc, ih (by simp)]
        rfl
      · rw [if_neg hc]
        rfl

theorem hullStep_ne_nil (stack : List P2) (p : P2) : hullStep stack p ≠ [] := by
  rcases hullStep_shape stack p with ⟨tl, heq, _⟩
  simp [heq]

theorem hullStep_length2 : ∀ (stack : List P2) (p : P2), stack ≠ [] →
    2 ≤ (hullStep stack p).length
  | [], _, h => absurd rfl h
  | [a], p, _ => by simp [hullStep]
  | t :: s :: rest, p, _ => by
    rw [hullStep]
    by_cases hc : cross s t p ≤ 0
    · rw [if_pos hc]
      exact hullStep_length2 (s :: rest) p (by simp)
    · rw [if_neg hc]
      simp

theorem foldl_hullStep_getLast? : ∀ (l s : List P2), s ≠ [] →
    (l.foldl hullStep s).getLast? = s.getLast?
  | [], s, _ => rfl
  | p :: rest, s, h => by
    rw [List.foldl_cons,
      foldl_hullStep_getLast? rest (hullStep s p) (hullStep_ne_nil s p),
      hullStep_getLast? s p h]

theorem foldl_hullStep_head? : ∀ (l s : List P2), l ≠ [] →
    (l.foldl hullStep s).head? = l.getLast?
  | [], _, h => absurd rfl h
  | [p], s, _ => by
    rcases hullStep_shape s p with ⟨tl, heq, _⟩
    simp [heq]
  | p :: p2 :: rest, s, _ => by
    rw [List.foldl_cons, foldl_hullStep_head? (p2 :: rest) _ (by simp)]
    rfl

theorem foldl_hullStep_length2 : ∀ (l s : List P2), l ≠ [] → s ≠ [] →
    2 ≤ (l.foldl hullStep s).length
  | [], _, h, _ => absurd rfl h
  | [p], s, _, hs => hullStep_length2 s p hs
  | p :: p2 :: rest, s, _, hs => by
    rw [List.foldl_cons]
    exact foldl_hullStep_length2 (p2 :: rest) _ (by simp) (hullStep_ne_nil s p)

theorem chain_head? (l : List P2) (h : l ≠ []) : (chain l).head? = l.getLast? :=
  foldl_hullStep_head? l [] h

theorem chain_getLast? : ∀ (l : List P2), l ≠ [] → (chain l).getLast? = l.head?
  | [], h => absurd rfl h
  | p :: rest, _ => by
    rw [chain, List.foldl_cons]
    rw [show hullStep [] p = [p] from rfl]
    rw [foldl_hullStep_getLast? rest [p] (by simp)]
    rfl

theorem chain_length2 : ∀ l : List P2, 2 ≤ l.length → 2 ≤ (chain l).length
  | [], h => by simp at h
  | [p], h => by simp at h
  | p :: p2 :: rest, _ => by
    rw [chain, List.foldl_cons]
    rw [show hullStep [] p = [p] from rfl]
    exact foldl_hullStep_length2 (p2 :: rest) [p] (by simp) (by simp)

theorem getLast?_mem_tail : ∀ (l : List P2) (x : P2), 2 ≤ l.length →
    l.getLast? = some x → x ∈ l.tail
  | [], _, h, _ => by simp at h
  | [a], _, h, _ => by simp at h
  | a :: b :: rest, x, _, hx => by
    have h1 : (b :: rest).getLast? = some x := by
      rw [← hx]
      exact (List.getLast?_cons_cons ..).symm
    have h2 : x ∈ (b :: rest).getLast? := by
      rw [h1]
      exact Option.mem_some_iff.mpr rfl
    exact List.mem_of_mem_getLast? h2

theorem hullStep_SD (lt : P2 → P2 → Prop) : ∀ (stack : List P2) (p : P2),
    stack.Pairwise (fun u v => lt v u) → (∀ s ∈ stack, lt s p) →
    (hullStep stack p).Pairwise (fun u v => lt v u)
  | [], p, _, _ => by simp [hullStep]
  | [a], p, _, hlt => by
    simp [hullStep]
    exact hlt a (by simp)
  | t :: s :: rest, p, hSD, hlt => by
    rw [hullStep]
    by_cases hc : cross s t p ≤ 0
    · rw [if_pos hc]
      exact hullStep_SD lt (s :: rest) p hSD.tail
        (fun x hx => hlt x (List.mem_cons_of_mem _ hx))
    · rw [if_neg hc]
      exact List.Pairwise.cons (fun x hx => hlt x hx) hSD

theorem hullStep_popped (lt : P2 → P2 → Prop) : ∀ (stack : List P2) (p q : P2),
    stack.Pairwise (fun u v => lt v u) →
    q ∈ stack → q ∉ hullStep stack p →
    ∃ a, a ∈ stack ∧ lt a q ∧ cross a q p ≤ 0
  | [], _, q, _, hq, _ => absurd hq (by simp)
  | [a], p, q, _, hq, hq2 => by
    refine absurd ?_ hq2
    rw [show hullStep [a] p = [p, a] from rfl]
    right
    exact hq
  | t :: s :: rest, p, q, hSD, hq, hq2 => by
    rw [hullStep] at hq2
    by_cases hc : cross s t p ≤ 0
    · rw [if_pos hc] at hq2
      rcases List.mem_cons.mp hq with rfl | hq3
      · exact ⟨s, by simp, List.rel_of_pairwise_cons hSD (by simp), hc⟩
      · rcases hullStep_popped lt (s :: rest) p q hSD.tail hq3 hq2 with ⟨a, ha, h1, h2⟩
        exact ⟨a, List.mem_cons_of_mem _ ha, h1, h2⟩
    · rw [if_neg hc] at hq2
      exact absurd (List.mem_cons_of_mem _ hq) hq2

theorem foldl_hullStep_missing (lt : P2 → P2 → Prop) :
    ∀ (l s : List P2) (q : P2),
    s.Pairwise (fun u v => lt v u) →
    (∀ a ∈ s, ∀ b ∈ l, lt a b) →
    l.Pairwise lt →
    (q ∈ s ∨ q ∈ l) → q ∉ l.foldl hullStep s →
    ∃ a c, (a ∈ s ∨ a ∈ l) ∧ c ∈ l ∧ lt a q ∧ lt q c ∧ cross a q c ≤ 0
  | [], s, q, _, _, _, hq, hq2 => by
    rcases hq with hq | hq
    · exact absurd hq hq2
    · simp at hq
  | p :: rest, s, q, hSD, hsl, hl, hq, hq2 => by
    rw [List.foldl_cons] at hq2
    have hltp : ∀ a ∈ s, lt a p := fun a ha => hsl a ha p (by simp)
    have hSD2 : (hullStep s p).Pairwise (fun u v => lt v u) := hullStep_SD lt s p hSD hltp
    have hsub : ∀ x ∈ hullStep s p, x = p ∨ x ∈ s := fun x hx => hullStep_mem s p x hx
    have hsl2 : ∀ a ∈ hullStep s p, ∀ b ∈ rest, lt a b := by
      intro a ha b hb
      rcases hsub a ha with rfl | ha2
      · exact List.rel_of_pairwise_cons hl hb
      · exact hsl a ha2 b (List.mem_cons_of_mem _ hb)
    have hp_mem : p ∈ hullStep s p := by
      rcases hullStep_shape s p with ⟨tl, heq, _⟩
      simp [heq]
    by_cases hrest : q ∈ rest
    · rcases foldl_hullStep_missing lt rest (hullStep s p) q hSD2 hsl2 hl.tail
        (Or.inr hrest) hq2 with ⟨a, c, hA, hC, h1, h2, h3⟩
      refine ⟨a, c, ?_, List.mem_cons_of_mem _ hC, h1, h2, h3⟩
      rcases hA with hA | hA
      · rcases hsub a hA with rfl | hA2
        · exact Or.inr (by simp)
        · exact Or.inl hA2
      · exact Or.inr (List.mem_cons_of_mem _ hA)
    · by_cases hmem : q ∈ hullStep s p
      · rcases foldl_hullStep_missing lt rest (hullStep s p) q hSD2 hsl2 hl.tail
          (Or.inl hmem) hq2 with ⟨a, c, hA, hC, h1, h2, h3⟩
        refine ⟨a, c, ?_, List.mem_cons_of_mem _ hC, h1, h2, h3⟩
        rcases hA with hA | hA
        · rcases hsub a hA with rfl | hA2
          · exact Or.inr (by simp)
          · exact Or.inl hA2
        · exact Or.inr (List.mem_cons_of_mem _ hA)
      · have hqs : q ∈ s := by
          rcases hq with hq | hq
          · exact hq
          · rcases List.mem_cons.mp hq with rfl | hq3
            · exact absurd hp_mem hmem
            · exact absurd hq3 hrest
        rcases hullStep_popped lt s p q hSD hqs hmem with ⟨a, ha, h1, h2⟩
        exact ⟨a, p, Or.inl ha, by simp, h1, hsl q hqs p (by simp), h2⟩

theorem cross_swap (a q c : P2) : cross a q c = -(cross c q a) := by
  unfold cross
  ring

theorem chain_missing_sorted (l : List P2) (q : P2) (hl : l.Pairwise lexLt)
    (hq : q ∈ l) (hq2 : q ∉ chain l) :
    ∃ a c, a ∈ l ∧ c ∈ l ∧ lexLt a q ∧ lexLt q c ∧ cross a q c ≤ 0 := by
  rcases foldl_hullStep_missing lexLt l [] q (by simp) (by simp) hl
    (Or.inr hq) hq2 with ⟨a, c, hA, hC, h1, h2, h3⟩
  rcases hA with hA | hA
  · simp at hA
  · exact ⟨a, c, hA, hC, h1, h2, h3⟩

theorem chain_missing_rev (l : List P2) (q : P2) (hl : l.Pairwise lexLt)
    (hq : q ∈ l) (hq2 : q ∉ chain l.reverse) :
    ∃ a c, a ∈ l ∧ c ∈ l ∧ lexLt a q ∧ lexLt q c ∧ 0 ≤ cross a q c := by
  have hlrev : l.reverse.Pairwise (fun u v => lexLt v u) :=
    List.pairwise_reverse.mpr hl
  rcases foldl_hullStep_missing (fun u v => lexLt v u) l.reverse [] q (by simp)
    (by simp) hlrev (Or.inr (List.mem_reverse.mpr hq)) hq2 with
    ⟨a, c, hA, hC, h1, h2, h3⟩
  rcases hA with hA | hA
  · simp at hA
  · refine ⟨c, a, List.mem_reverse.mp hC, List.mem_reverse.mp hA, h2, h1, ?_⟩
    rw [cross_swap] at h3
    linarith

theorem lexLt_le_x {u v : P2} (h : lexLt u v) : u.x ≤ v.x := by
  rcases h with h | ⟨h, _⟩
  · exact le_of_lt h
  · exact le_of_eq h

theorem lexLt_ne_pos {u v : P2} (h : lexLt u v) : p2pos u ≠ p2pos v := by
  intro heq
  rw [p2pos, p2pos, Prod.mk.injEq] at heq
  rcases h with h | ⟨_, h⟩
  · exact absurd h (by rw [heq.1]; exact lt_irrefl _)
  · exact absurd h (by rw [heq.2]; exact lt_irrefl _)

theorem combo_eq (A C Q : ℚ) (h : A ≠ C) :
    (1 - (Q - A)/(C - A)) * A + ((Q - A)/(C - A)) * C = Q := by
  have hne : C - A ≠ 0 := sub_ne_zero.mpr (Ne.symm h)
  calc (1 - (Q - A)/(C - A)) * A + ((Q - A)/(C - A)) * C
      = A + ((Q - A)/(C - A)) * (C - A) := by ring
    _ = A + (Q - A) := by rw [div_mul_cancel₀ _ hne]
    _ = Q := by ring

theorem combo_le (A C Q Ay Cy Qy : ℚ) (hAC : A < C)
    (hcr : (Q - A) * (Cy - Ay) - (Qy - Ay) * (C - A) ≤ 0) :
    (1 - (Q - A)/(C - A)) * Ay + ((Q - A)/(C - A)) * Cy ≤ Qy := by
  have hpos : 0 < C - A := by linarith
  have key : ((Q - A) * (Cy - Ay)) / (C - A) ≤ Qy - Ay := by
    rw [div_le_iff₀ hpos]
    nlinarith [hcr]
  calc (1 - (Q - A)/(C - A)) * Ay + ((Q - A)/(C - A)) * Cy
      = Ay + ((Q - A) * (Cy - Ay))/(C - A) := by
        rw [← div_mul_eq_mul_div]
        ring
    _ ≤ Ay + (Qy - Ay) := by linarith
    _ = Qy := by ring

theorem combo_ge (A C Q Ay Cy Qy : ℚ) (hAC : A < C)
    (hcr : 0 ≤ (Q - A) * (Cy - Ay) - (Qy - Ay) * (C - A)) :
    Qy ≤ (1 - (Q - A)/(C - A)) * Ay + ((Q - A)/(C - A)) * Cy := by
  have hpos : 0 < C - A := by linarith
  have key : Qy - Ay ≤ ((Q - A) * (Cy - Ay)) / (C - A) := by
    rw [le_div_iff₀ hpos]
    nlinarith [hcr]
  calc Qy = Ay + (Qy - Ay) := by ring
    _ ≤ Ay + ((Q - A) * (Cy - Ay))/(C - A) := by linarith
    _ = (1 - (Q - A)/(C - A)) * Ay + ((Q - A)/(C - A)) * Cy := by
        rw [← div_mul_eq_mul_div]
        ring

theorem lexLt_y_of_eq_x {u v : P2} (h : lexLt u v) (hx : u.x = v.x) : u.y < v.y := by
  rcases h with h1 | ⟨_, h1⟩
  · exact absurd h1 (by rw [hx]; exact lt_irrefl _)
  · exact h1

theorem chord_below (a c q : P2) (ha : lexLt a q) (hc : lexLt q c)
    (hcr : cross a q c ≤ 0) :
    ∃ P : ℚ × ℚ, P ∈ segment ℚ (p2pos a) (p2pos c) ∧ P.1 = q.x ∧ P.2 ≤ q.y := by
  have hax : a.x ≤ q.x := lexLt_le_x ha
  have hqc : q.x ≤ c.x := lexLt_le_x hc
  by_cases hacx : a.x = c.x
  · have h1 : a.x = q.x := le_antisymm hax (hacx ▸ hqc)
    have h2 : q.x = c.x := h1 ▸ hacx
    have hay : a.y < q.y := lexLt_y_of_eq_x ha h1
    have hqy : q.y < c.y := lexLt_y_of_eq_x hc h2
    have hane : a.y ≠ c.y := ne_of_lt (lt_trans hay hqy)
    refine ⟨(q.x, q.y), ⟨1 - (q.y - a.y)/(c.y - a.y), (q.y - a.y)/(c.y - a.y),
      ?_, ?_, by ring, ?_⟩, rfl, le_refl _⟩
    · have ht1 : (q.y - a.y)/(c.y - a.y) ≤ 1 := by
        rw [div_le_one (by linarith)]
        linarith
      linarith
    · exact div_nonneg (by linarith) (by linarith)
    · have hx : (1 - (q.y - a.y)/(c.y - a.y)) * a.x + ((q.y - a.y)/(c.y - a.y)) * c.x = q.x := by
        rw [show c.x = a.x from hacx.symm, ← h1]
        ring
      have hy : (1 - (q.y - a.y)/(c.y - a.y)) * a.y + ((q.y - a.y)/(c.y - a.y)) * c.y = q.y :=
        combo_eq a.y c.y q.y hane
      exact Prod.ext hx hy
  · have hlt : a.x < c.x := lt_of_le_of_ne (le_trans hax hqc) hacx
    refine ⟨(1 - (q.x - a.x)/(c.x - a.x)) • p2pos a + ((q.x - a.x)/(c.x - a.x)) • p2pos c,
      ⟨1 - (q.x - a.x)/(c.x - a.x), (q.x - a.x)/(c.x - a.x), ?_, ?_, by ring, rfl⟩,
      ?_, ?_⟩
    · have ht1 : (q.x - a.x)/(c.x - a.x) ≤ 1 := by
        rw [div_le_one (by linarith)]
        linarith
      linarith
    · exact div_nonneg (by linarith) (by linarith)
    · show (1 - (q.x - a.x)/(c.x - a.x)) * a.x + ((q.x - a.x)/(c.x - a.x)) * c.x = q.x
      exact combo_eq a.x c.x q.x (ne_of_lt hlt)
    · show (1 - (q.x - a.x)/(c.x - a.x)) * a.y + ((q.x - a.x)/(c.x - a.x)) * c.y ≤ q.y
      refine combo_le a.x c.x q.x a.y c.y q.y hlt ?_
      unfold cross at hcr
      linarith

theorem chord_above (a c q : P2) (ha : lexLt a q) (hc : lexLt q c)
    (hcr : 0 ≤ cross a q c) :
    ∃ P : ℚ × ℚ, P ∈ segment ℚ (p2pos a) (p2pos c) ∧ P.1 = q.x ∧ q.y ≤ P.2 := by
  have hax : a.x ≤ q.x := lexLt_le_x ha
  have hqc : q.x ≤ c.x := lexLt_le_x hc
  by_cases hacx : a.x = c.x
  · have h1 : a.x = q.x := le_antisymm hax (hacx ▸ hqc)
    have h2 : q.x = c.x := h1 ▸ hacx
    have hay : a.y < q.y := lexLt_y_of_eq_x ha h1
    have hqy : q.y < c.y := lexLt_y_of_eq_x hc h2
    have hane : a.y ≠ c.y := ne_of_lt (lt_trans hay hqy)
    refine ⟨(q.x, q.y), ⟨1 - (q.y - a.y)/(c.y - a.y), (q.y - a.y)/(c.y - a.y),
      ?_, ?_, by ring, ?_⟩, rfl, le_refl _⟩
    · have ht1 : (q.y - a.y)/(c.y - a.y) ≤ 1 := by
        rw [div_le_one (by linarith)]
        linarith
      linarith
    · exact div_nonneg (by linarith) (by linarith)
    · have hx : (1 - (q.y - a.y)/(c.y - a.y)) * a.x + ((q.y - a.y)/(c.y - a.y)) * c.x = q.x := by
        rw [show c.x = a.x from hacx.symm, ← h1]
        ring
      have hy : (1 - (q.y - a.y)/(c.y - a.y)) * a.y + ((q.y - a.y)/(c.y - a.y)) * c.y = q.y :=
        combo_eq a.y c.y q.y hane
      exact Prod.ext hx hy
  · have hlt : a.x < c.x := lt_of_le_of_ne (le_trans hax hqc) hacx
    refine ⟨(1 - (q.x - a.x)/(c.x - a.x)) • p2pos a + ((q.x - a.x)/(c.x - a.x)) • p2pos c,
      ⟨1 - (q.x - a.x)/(c.x - a.x), (q.x - a.x)/(c.x - a.x), ?_, ?_, by ring, rfl⟩,
      ?_, ?_⟩
    · have ht1 : (q.x - a.x)/(c.x - a.x) ≤ 1 := by
        rw [div_le_one (by linarith)]
        linarith
      linarith
    · exact div_nonneg (by linarith) (by linarith)
    · show (1 - (q.x - a.x)/(c.x - a.x)) * a.x + ((q.x - a.x)/(c.x - a.x)) * c.x = q.x
      exact combo_eq a.x c.x q.x (ne_of_lt hlt)
    · show q.y ≤ (1 - (q.x - a.x)/(c.x - a.x)) * a.y + ((q.x - a.x)/(c.x - a.x)) * c.y
      refine combo_ge a.x c.x q.x a.y c.y q.y hlt ?_
      unfold cross at hcr
      linarith

theorem between_mem_hull (a c a2 c2 q : P2)
    (h1 : lexLt a q) (h2 : lexLt q c) (hc1 : cross a q c ≤ 0)
    (h3 : lexLt a2 q) (h4 : lexLt q c2) (hc2 : 0 ≤ cross a2 q c2) :
    p2pos q ∈ convexHull ℚ {p2pos a, p2pos c, p2pos a2, p2pos c2} := by
  rcases chord_below a c q h1 h2 hc1 with ⟨P1, hP1seg, hP1x, hP1y⟩
  rcases chord_above a2 c2 q h3 h4 hc2 with ⟨P2, hP2seg, hP2x, hP2y⟩
  have haS : p2pos a ∈ ({p2pos a, p2pos c, p2pos a2, p2pos c2} : Set (ℚ × ℚ)) := by simp
  have hcS : p2pos c ∈ ({p2pos a, p2pos c, p2pos a2, p2pos c2} : Set (ℚ × ℚ)) := by simp
  have ha2S : p2pos a2 ∈ ({p2pos a, p2pos c, p2pos a2, p2pos c2} : Set (ℚ × ℚ)) := by simp
  have hc2S : p2pos c2 ∈ ({p2pos a, p2pos c, p2pos a2, p2pos c2} : Set (ℚ × ℚ)) := by simp
  have hP1 : P1 ∈ convexHull ℚ ({p2pos a, p2pos c, p2pos a2, p2pos c2} : Set (ℚ × ℚ)) :=
    segment_subset_convexHull haS hcS hP1seg
  have hP2 : P2 ∈ convexHull ℚ ({p2pos a, p2pos c, p2pos a2, p2pos c2} : Set (ℚ × ℚ)) :=
    segment_subset_convexHull ha2S hc2S hP2seg
  have hyy : P1.2 ≤ P2.2 := le_trans hP1y hP2y
  have hqseg : p2pos q ∈ segment ℚ P1 P2 := by
    rcases eq_or_lt_of_le hyy with heq | hlt
    · have hq1 : q.y = P1.2 := le_antisymm (heq ▸ hP2y) hP1y
      have hqP : p2pos q = P1 := Prod.ext hP1x.symm hq1
      rw [hqP]
      exact left_mem_segment ℚ P1 P2
    · refine ⟨1 - (q.y - P1.2)/(P2.2 - P1.2), (q.y - P1.2)/(P2.2 - P1.2),
        ?_, ?_, by ring, ?_⟩
      · have ht1 : (q.y - P1.2)/(P2.2 - P1.2) ≤ 1 := by
          rw [div_le_one (by linarith)]
          linarith
        linarith
      · exact div_nonneg (by linarith) (by linarith)
      · refine Prod.ext ?_ ?_
        · show (1 - (q.y - P1.2)/(P2.2 - P1.2)) * P1.1 +
            ((q.y - P1.2)/(P2.2 - P1.2)) * P2.1 = q.x
          rw [hP1x, hP2x]
          ring
        · show (1 - (q.y - P1.2)/(P2.2 - P1.2)) * P1.2 +
            ((q.y - P1.2)/(P2.2 - P1.2)) * P2.2 = q.y
          exact combo_eq P1.2 P2.2 q.y (ne_of_lt hlt)
  exact (convex_convexHull ℚ _).segment_subset hP1 hP2 hqseg

theorem jsLeB_trans : ∀ a b c : P2, jsLeB a b → jsLeB b c → jsLeB a c := by
  intro a b c hab hbc
  simp only [jsLeB, decide_eq_true_eq] at *
  rcases hab with h1 | ⟨h1, h2⟩ <;> rcases hbc with h3 | ⟨h3, h4⟩
  · exact Or.inl (lt_trans h1 h3)
  · exact Or.inl (h3 ▸ h1)
  · exact Or.inl (h1 ▸ h3)
  · exact Or.inr ⟨h1.trans h3, le_trans h2 h4⟩

theorem jsLeB_total : ∀ a b : P2, jsLeB a b ∨ jsLeB b a := by
  intro a b
  simp only [jsLeB, decide_eq_true_eq]
  rcases lt_trichotomy a.x b.x with h | h | h
  · exact Or.inl (Or.inl h)
  · rcases le_total a.y b.y with h2 | h2
    · exact Or.inl (Or.inr ⟨h, h2⟩)
    · exact Or.inr (Or.inr ⟨h.symm, h2⟩)
  · exact Or.inr (Or.inl h)

theorem lexLt_of_le_ne {u v : P2} (hle : jsLeB u v = true)
    (hne : p2pos u ≠ p2pos v) : lexLt u v := by
  simp only [jsLeB, decide_eq_true_eq] at hle
  rcases hle with h | ⟨h1, h2⟩
  · exact Or.inl h
  · right
    refine ⟨h1, lt_of_le_of_ne h2 ?_⟩
    intro hy
    exact hne (by rw [p2pos, p2pos, h1, hy])

theorem projIdx_length : ∀ (i : ℕ) (pts : List Point),
    (projIdx i pts).length = pts.length
  | _, [] => rfl
  | i, p :: rest => by
    rw [projIdx, List.length_cons, List.length_cons, projIdx_length (i + 1) rest]

theorem projIdx_pairwise_ne (pts : List Point)
    (hp : List.Pairwise (fun p q : Point => pos2 p ≠ pos2 q) pts) :
    ∀ i : ℕ, List.Pairwise (fun u v : P2 => p2pos u ≠ p2pos v) (projIdx i pts) := by
  induction pts with
  | nil => intro i; simp [projIdx]
  | cons p rest ih =>
    intro i
    rw [projIdx]
    refine List.Pairwise.cons ?_ (ih hp.tail (i + 1))
    intro v hv
    rcases (mem_projIdx rest (i + 1) v).mp hv with ⟨j, hj, rfl⟩
    have : pos2 p ≠ pos2 (rest.get ⟨j, hj⟩) :=
      List.rel_of_pairwise_cons hp (rest.get_mem _ _)
    simpa [p2pos, pos2] using this

theorem head?_of_mem_not_tail : ∀ (l : List P2) (x : P2),
    x ∈ l → x ∉ l.tail → l.head? = some x
  | [], x, hx, _ => absurd hx (by simp)
  | h :: t, x, hx, hnt => by
    rcases List.mem_cons.mp hx with rfl | hx2
    · rfl
    · exact absurd hx2 hnt

/-- C8.  On a cloud in strictly convex position (the vertex set of a convex
polygon), 2D boundary detection returns exactly the set of all indices: the
hull of a convex point set round-trips to the point set itself. -/
theorem hull_of_strictly_convex (pts : List Point) (hcv : StrictConvexPos pts) :
    identifyBoundaryPoints pts = Finset.range pts.length := by
  by_cases h0 : pts.length = 0
  · unfold identifyBoundaryPoints
    rw [if_pos h0, h0]
    simp
  by_cases h3 : pts.length < 3
  · unfold identifyBoundaryPoints
    rw [if_neg h0, if_pos h3]
  refine Finset.Subset.antisymm (identifyBoundaryPoints_subset pts) ?_
  intro i hi
  rw [Finset.mem_range] at hi
  set q : P2 := ⟨(pts.get ⟨i, hi⟩).x, (pts.get ⟨i, hi⟩).y, i⟩ with hq_def
  have hq_proj : q ∈ projIdx 0 pts :=
    (mem_projIdx pts 0 q).mpr ⟨i, hi, by simp [hq_def]⟩
  set S := jsSort jsLeB (projIdx 0 pts) with hS_def
  have hqS : q ∈ S := mem_jsSort.mpr hq_proj
  have hS_le : S.Pairwise (fun u v => jsLeB u v = true) :=
    jsSort_pairwise jsLeB_trans jsLeB_total _
  have hS_ne : S.Pairwise (fun u v : P2 => p2pos u ≠ p2pos v) :=
    ((jsSort_perm jsLeB (projIdx 0 pts)).pairwise_iff
      (fun hxy => Ne.symm hxy)).mpr (projIdx_pairwise_ne pts hcv.1 0)
  have hSlex : S.Pairwise lexLt :=
    (hS_le.and hS_ne).imp (fun h => lexLt_of_le_ne h.1 h.2)
  have hSlen : 2 ≤ S.length := by
    have hpl : S.length = (projIdx 0 pts).length :=
      (jsSort_perm jsLeB (projIdx 0 pts)).length_eq
    rw [hpl, projIdx_length]
    omega
  have hS_ne_nil : S ≠ [] := by
    intro h
    rw [h] at hSlen
    simp at hSlen
  have hSrev_ne_nil : S.reverse ≠ [] := by
    simpa using hS_ne_nil
  have hq_hull : q ∈ convexHull2D (projIdx 0 pts) := by
    by_contra hq2
    unfold convexHull2D at hq2
    rw [if_neg (by rw [projIdx_length]; omega)] at hq2
    rw [← hS_def, List.mem_append] at hq2
    push_neg at hq2
    obtain ⟨hqL, hqU⟩ := hq2
    rw [List.mem_reverse] at hqL hqU
    have hL2 : 2 ≤ (chain S).length := chain_length2 S hSlen
    have hU2 : 2 ≤ (chain S.reverse).length :=
      chain_length2 _ (by rwa [List.length_reverse])
    by_cases hqL2 : q ∈ chain S
    · have hhead : (chain S).head? = some q := head?_of_mem_not_tail _ q hqL2 hqL
      have hlast : S.getLast? = some q := by
        rw [← chain_head? S hS_ne_nil, hhead]
      have hUlast : (chain S.reverse).getLast? = some q := by
        rw [chain_getLast? S.reverse hSrev_ne_nil, List.head?_reverse, hlast]
      exact hqU (getLast?_mem_tail _ q hU2 hUlast)
    · obtain ⟨a, c, haS, hcS, ha1, ha2, ha3⟩ :=
        chain_missing_sorted S q hSlex hqS hqL2
      by_cases hqU2 : q ∈ chain S.reverse
      · have hhead : (chain S.reverse).head? = some q :=
          head?_of_mem_not_tail _ q hqU2 hqU
        have hfirst : S.head? = some q := by
          rw [← List.getLast?_reverse, ← chain_head? S.reverse hSrev_ne_nil, hhead]
        have hLlast : (chain S).getLast? = some q := by
          rw [chain_getLast? S hS_ne_nil, hfirst]
        exact hqL (getLast?_mem_tail _ q hL2 hLlast)
      · obtain ⟨a2, c2, ha2S, hc2S, hb1, hb2, hb3⟩ :=
          chain_missing_rev S q hSlex hqS hqU2
        have hhull := between_mem_hull a c a2 c2 q ha1 ha2 ha3 hb1 hb2 hb3
        have member_other : ∀ w : P2, w ∈ S → p2pos w ≠ p2pos q →
            p2pos w ∈ otherPos2 pts i := by
          intro w hw hne
          have hwp : w ∈ projIdx 0 pts := mem_jsSort.mp hw
          rcases (mem_projIdx pts 0 w).mp hwp with ⟨j, hj, rfl⟩
          refine ⟨j, hj, ?_, by simp [p2pos, pos2]⟩
          intro hji
          apply hne
          subst hji
          simp [p2pos, pos2, hq_def]
        have hsubset : ({p2pos a, p2pos c, p2pos a2, p2pos c2} : Set (ℚ × ℚ)) ⊆
            otherPos2 pts i := by
          intro w hw
          rcases hw with rfl | rfl | rfl | rfl
          · exact member_other a haS (lexLt_ne_pos ha1)
          · exact member_other c hcS (Ne.symm (lexLt_ne_pos ha2))
          · exact member_other a2 ha2S (lexLt_ne_pos hb1)
          · exact member_other c2 hc2S (Ne.symm (lexLt_ne_pos hb2))
        have hfinal : p2pos q ∈ convexHull ℚ (otherPos2 pts i) :=
          convexHull_mono hsubset hhull
        exact hcv.2 i hi (by simpa [p2pos, pos2, hq_def] using hfinal)
  exact mem_identifyBoundaryPoints_of_hull (by omega) hq_hull

theorem not_mem_convexHull_of_sep2 {s : Set (ℚ × ℚ)} {q : ℚ × ℚ}
    (a b r : ℚ) (hs : ∀ v ∈ s, r ≤ a * v.1 + b * v.2)
    (hq : a * q.1 + b * q.2 < r) : q ∉ convexHull ℚ s := by
  intro hmem
  have hlin : IsLinearMap ℚ (fun v : ℚ × ℚ => a * v.1 + b * v.2) := by
    constructor
    · intro u v
      simp only [Prod.fst_add, Prod.snd_add]
      ring
    · intro t v
      simp only [Prod.smul_fst, Prod.smul_snd, smul_eq_mul]
      ring
  have hsub : convexHull ℚ s ⊆ {v | r ≤ a * v.1 + b * v.2} :=
    convexHull_min hs (convex_halfSpace_ge hlin r)
  exact absurd (hsub hmem) (not_le.mpr hq)

theorem tri3_strict_convex : StrictConvexPos tri3 := by
  constructor
  · norm_num [tri3, List.pairwise_cons, pos2, Prod.ext_iff]
  · intro i hlt
    have h3 : i < 3 := by simpa [tri3] using hlt
    interval_cases i
    · refine not_mem_convexHull_of_sep2 1 1 1 ?_ (by norm_num [tri3, pos2])
      rintro v ⟨j, hj, hne, rfl⟩
      have hj3 : j < 3 := by simpa [tri3] using hj
      interval_cases j <;> first | exact absurd rfl hne | norm_num [tri3, pos2]
    · refine not_mem_convexHull_of_sep2 (-1) 0 0 ?_ (by norm_num [tri3, pos2])
      rintro v ⟨j, hj, hne, rfl⟩
      have hj3 : j < 3 := by simpa [tri3] using hj
      interval_cases j <;> first | exact absurd rfl hne | norm_num [tri3, pos2]
    · refine not_mem_convexHull_of_sep2 0 (-1) 0 ?_ (by norm_num [tri3, pos2])
      rintro v ⟨j, hj, hne, rfl⟩
      have hj3 : j < 3 := by simpa [tri3] using hj
      interval_cases j <;> first | exact absurd rfl hne | norm_num [tri3, pos2]

/-- C8, witness at the right-triangle vertex set. -/
theorem hull_of_strictly_convex_witness :
    identifyBoundaryPoints tri3 = Finset.range tri3.length :=
  hull_of_strictly_convex tri3 tri3_strict_convex

end CloudStream
